import Mathlib

/-!
A shallow embedding of `SimpleVector<Type>` and `ArrayPtr<Type>`.

Sources: `cpp_simple_vector/array_ptr.h`, `cpp_simple_vector/simple_vector.h`
(the copy/move-aware variant) and `simple_vector/simple_vector.h` (the copy-only
variant, whose `Insert` and `Erase` use `std::copy` / `std::copy_backward`).

Modelling decisions.

* An `ArrayPtr` owns its block exclusively (the class is move-only), so the
  contents of the block are part of the value of the `ArrayPtr`: `raw_ptr_` is
  `none` for `nullptr` and `some block` for a live block.
* An iterator (a raw `Type*` into the block) is the offset from `begin()`.
* Every access `raw_ptr_[index]` may fail: outside the block it is undefined
  behaviour, which the embedding reports as `Outcome.undefined`.  So is a pointer
  range `[first, last)` with `last` before `first`.
* `size_t` arithmetic performed by the code (`capacity_ * 2`, `++size_`,
  `--size_`, `distance + 1`) wraps modulo `2 ^ 64`.
* Moving an element (`std::move` of a `Type`) transfers its value; the
  moved-from slot is modelled as keeping the value.  `std::move` and `std::copy`
  over ranges are therefore the same element-by-element loop.
* Allocation always succeeds (`std::bad_alloc` is outside the model).
* A parameter `const Type&` or `Type&&` is a reference, `Arg`: to an object that
  is not an element of the vector, or to an element of the vector's own block.
  It is read where the source reads it, so after the block was shifted or
  released when the statement that reads it comes after that.
-/

namespace SimpleVectorModel

/-- Number of values of `size_t`: arithmetic on `size_t` is modulo this. -/
def SIZE_MOD : Nat := 2 ^ 64

/-- Largest size of an array object, `PTRDIFF_MAX`. -/
def PTRDIFF_MAX : Nat := 2 ^ 63 - 1

/-- Result of running a piece of the code: a value, the `std::out_of_range`
exception thrown by `At`, or undefined behaviour (an access outside a block, or
an invalid pointer range). -/
inductive Outcome (α : Type) where
  | ok (value : α)
  | out_of_range
  | undefined
  deriving DecidableEq

namespace Outcome

/-- Sequencing: the first failure is the result. -/
def bind {α β : Type} (x : Outcome α) (f : α → Outcome β) : Outcome β :=
  match x with
  | ok a => f a
  | out_of_range => out_of_range
  | undefined => undefined

instance : Monad Outcome where
  pure := Outcome.ok
  bind := Outcome.bind

end Outcome

/-- What the element type `Type` supplies besides `==` and `<`:
`value_init` is the value of the expression `Type{}`;
`default_init` is the value of each element of a block made by `new Type[n]`
(for a scalar `Type` an indeterminate value, for a class type the default
constructed one). -/
class Element (α : Type) where
  value_init : α
  default_init : α

/-- Elements of type `int`: `int{}` is 0; an `int` of a `new int[n]` block is
not initialised, and stands here as the arbitrary value -1. -/
instance intElement : Element Int where
  value_init := 0
  default_init := -1

/-- The class `ArrayPtr<Type>`: its only member is `raw_ptr_`. -/
structure ArrayPtr (α : Type) where
  raw_ptr_ : Option (List α)
  deriving DecidableEq

namespace ArrayPtr

variable {α : Type}

/-- The constructor `ArrayPtr() = default`: `raw_ptr_ = nullptr`. -/
def null : ArrayPtr α := ⟨none⟩

/-- The constructor `ArrayPtr(size_t size)`:
`raw_ptr_ = (size == 0) ? nullptr : new Type[size]`. -/
def alloc [Element α] (size : Nat) : ArrayPtr α :=
  ⟨if size = 0 then none else some (List.replicate size Element.default_init)⟩

/-- The elements of the owned block; no elements when `raw_ptr_` is `nullptr`. -/
def block (p : ArrayPtr α) : List α :=
  match p.raw_ptr_ with
  | none => []
  | some b => b

/-- Reading `raw_ptr_[index]` (`operator[]`, also through `Get() + index`). -/
def read (p : ArrayPtr α) (index : Nat) : Outcome α :=
  match p.block[index]? with
  | some x => .ok x
  | none => .undefined

/-- Assigning `raw_ptr_[index] = x` (`operator[]`, also through `Get() + index`). -/
def write (p : ArrayPtr α) (index : Nat) (x : α) : Outcome (ArrayPtr α) :=
  if index < p.block.length then .ok ⟨some (p.block.set index x)⟩ else .undefined

/-- The conversion `explicit operator bool()`. -/
def toBool (p : ArrayPtr α) : Bool :=
  match p.raw_ptr_ with
  | none => false
  | some _ => true

/-- The member `Release()`: the handle, and the emptied `ArrayPtr`. -/
def Release (p : ArrayPtr α) : Option (List α) × ArrayPtr α :=
  (p.raw_ptr_, ⟨none⟩)

/-- The member `swap(ArrayPtr& other)`: the two handles are exchanged. -/
def swap (p other : ArrayPtr α) : ArrayPtr α × ArrayPtr α :=
  (⟨other.raw_ptr_⟩, ⟨p.raw_ptr_⟩)

end ArrayPtr

/-- What a parameter of type `const Type&` or `Type&&` is bound to: an object
that is not an element of the vector, given by its value, or the element at
`index` of the block the vector owns when the call starts (as in
`v.PushBack(v[index])`). -/
inductive Arg (α : Type) where
  | object (value : α)
  | element (index : Nat)
  deriving DecidableEq

/-- Reading through the parameter.  `target` is the block an element reference
points into: `some` block, with its contents at the time of the read, while that
block is still allocated, and `none` once it has been released, when the read is
undefined behaviour. -/
def Arg.read {α : Type} (a : Arg α) (target : Option (ArrayPtr α)) : Outcome α :=
  match a, target with
  | .object x, _ => .ok x
  | .element index, some p => p.read index
  | .element _, none => .undefined

section Algorithms

variable {α : Type}

/-- Body of `std::copy` / `std::move` (first, last, d_first) when the
destination is another block than the source: `n` times
`*d_first++ = *first++`. -/
def copy_loop (src : ArrayPtr α) (first : Nat) (dst : ArrayPtr α) (d_first : Nat) :
    Nat → Outcome (ArrayPtr α)
  | 0 => .ok dst
  | n + 1 => do
    let x ← src.read first
    let dst1 ← dst.write d_first x
    copy_loop src (first + 1) dst1 (d_first + 1) n

/-- The call `std::copy(first, last, d_first)` or `std::move(first, last, d_first)`
from the block of `src` into the block of `dst`; `[first, last)` must be a
range. -/
def std_copy (src : ArrayPtr α) (first last : Nat) (dst : ArrayPtr α) (d_first : Nat) :
    Outcome (ArrayPtr α) :=
  if first ≤ last then copy_loop src first dst d_first (last - first) else .undefined

/-- Body of `std::copy` / `std::move` (first, last, d_first) inside one block:
`n` times `*d_first++ = *first++`, each read seeing the earlier writes. -/
def copy_within_loop (p : ArrayPtr α) (first d_first : Nat) : Nat → Outcome (ArrayPtr α)
  | 0 => .ok p
  | n + 1 => do
    let x ← p.read first
    let p1 ← p.write d_first x
    copy_within_loop p1 (first + 1) (d_first + 1) n

/-- The call `std::copy(first, last, d_first)` or `std::move(first, last, d_first)`
with source and destination in the same block. -/
def std_copy_within (p : ArrayPtr α) (first last d_first : Nat) : Outcome (ArrayPtr α) :=
  if first ≤ last then copy_within_loop p first d_first (last - first) else .undefined

/-- Body of `std::copy_backward` / `std::move_backward` (first, last, d_last)
inside one block: `n` times `*(--d_last) = *(--last)`.  Stepping a pointer
before the start of the block is undefined. -/
def copy_backward_loop (p : ArrayPtr α) (last d_last : Nat) : Nat → Outcome (ArrayPtr α)
  | 0 => .ok p
  | n + 1 =>
    if last = 0 ∨ d_last = 0 then .undefined
    else do
      let x ← p.read (last - 1)
      let p1 ← p.write (d_last - 1) x
      copy_backward_loop p1 (last - 1) (d_last - 1) n

/-- The call `std::copy_backward(first, last, d_last)` or
`std::move_backward(first, last, d_last)` inside one block. -/
def std_copy_backward (p : ArrayPtr α) (first last d_last : Nat) : Outcome (ArrayPtr α) :=
  if first ≤ last then copy_backward_loop p last d_last (last - first) else .undefined

/-- Body of `std::fill(first, last, value)`: `n` times `*first++ = value`. -/
def fill_loop (p : ArrayPtr α) (first : Nat) (value : α) : Nat → Outcome (ArrayPtr α)
  | 0 => .ok p
  | n + 1 => do
    let p1 ← p.write first value
    fill_loop p1 (first + 1) value n

/-- The call `std::fill(first, last, value)`. -/
def std_fill (p : ArrayPtr α) (first last : Nat) (value : α) : Outcome (ArrayPtr α) :=
  if first ≤ last then fill_loop p first value (last - first) else .undefined

/-- Body of `std::equal`: compare `n` pairs, stopping at the first pair that
is not `==`. -/
def equal_loop [BEq α] (a : ArrayPtr α) (first1 : Nat) (b : ArrayPtr α) (first2 : Nat) :
    Nat → Outcome Bool
  | 0 => .ok true
  | n + 1 => do
    let x ← a.read first1
    let y ← b.read first2
    if x == y then equal_loop a (first1 + 1) b (first2 + 1) n else .ok false

/-- The call `std::equal(first1, last1, first2, last2)` on random-access
iterators: `false` when the two distances differ, else the pairwise loop. -/
def std_equal [BEq α] (a : ArrayPtr α) (first1 last1 : Nat) (b : ArrayPtr α)
    (first2 last2 : Nat) : Outcome Bool :=
  if first1 ≤ last1 ∧ first2 ≤ last2 then
    if last1 - first1 ≠ last2 - first2 then .ok false
    else equal_loop a first1 b first2 (last1 - first1)
  else .undefined

end Algorithms

/-- The class `SimpleVector<Type>`: members `items_`, `size_`, `capacity_`. -/
structure SimpleVector (α : Type) where
  items_ : ArrayPtr α
  size_ : Nat
  capacity_ : Nat
  deriving DecidableEq

namespace SimpleVector

variable {α : Type}

/-- The constructor `SimpleVector() noexcept = default`: the default member
initialisers give a null `items_`, `size_ = 0`, `capacity_ = 0`. -/
def ctor_default : SimpleVector α := ⟨ArrayPtr.null, 0, 0⟩

/-- The member `GetSize()`. -/
def GetSize (v : SimpleVector α) : Nat := v.size_

/-- The member `GetCapacity()`. -/
def GetCapacity (v : SimpleVector α) : Nat := v.capacity_

/-- The member `IsEmpty()`. -/
def IsEmpty (v : SimpleVector α) : Bool := v.size_ == 0

/-- The members `begin()` and `cbegin()`: `items_.Get()`, offset 0 of the block. -/
def begin_ (_v : SimpleVector α) : Nat := 0

/-- The members `end()` and `cend()`: `items_.Get() + size_`. -/
def end_ (v : SimpleVector α) : Nat := v.begin_ + v.size_

/-- The member `operator[](size_t index)`: `return items_[index]`, unchecked. -/
def subscript (v : SimpleVector α) (index : Nat) : Outcome α :=
  v.items_.read index

/-- The member `At(size_t index)`: throws when `size_ <= index`, else
`return items_[index]`.  The first component is the object after the call (no
member is assigned), the second what the call yields. -/
def At (v : SimpleVector α) (index : Nat) : SimpleVector α × Outcome α :=
  if v.size_ ≤ index then (v, .out_of_range) else (v, v.items_.read index)

/-- The member `Clear()`: `size_ = 0`. -/
def Clear (v : SimpleVector α) : SimpleVector α := { v with size_ := 0 }

/-- The private member `IncreaseCapacity(size_t new_capacity)`: a new block, the
live elements moved into it, the blocks swapped (the old one is destroyed with
the local `new_array`), `capacity_ = new_capacity`. -/
def IncreaseCapacity [Element α] (v : SimpleVector α) (new_capacity : Nat) :
    Outcome (SimpleVector α) := do
  let new_array : ArrayPtr α := ArrayPtr.alloc new_capacity
  let new_array ← std_copy v.items_ v.begin_ v.end_ new_array 0
  let (items, _old) := v.items_.swap new_array
  pure { v with items_ := items, capacity_ := new_capacity }

/-- The member `Reserve(size_t new_capacity)`. -/
def Reserve [Element α] (v : SimpleVector α) (new_capacity : Nat) :
    Outcome (SimpleVector α) :=
  if new_capacity > v.capacity_ then v.IncreaseCapacity new_capacity else pure v

/-- The private member `Fill(Iterator first, Iterator last)`: when
`first < last`, every slot of the range is assigned `Type{}`. -/
def Fill [Element α] (v : SimpleVector α) (first last : Nat) : Outcome (SimpleVector α) :=
  if first < last then do
    let items ← fill_loop v.items_ first Element.value_init (last - first)
    pure { v with items_ := items }
  else pure v

/-- The member `Resize(size_t new_size)`. -/
def Resize [Element α] (v : SimpleVector α) (new_size : Nat) : Outcome (SimpleVector α) :=
  if new_size < v.size_ then pure { v with size_ := new_size }
  else if new_size > v.size_ then do
    let v1 ← if v.capacity_ < new_size then
        v.IncreaseCapacity (max new_size (v.capacity_ * 2 % SIZE_MOD))
      else pure v
    let v2 ← v1.Fill (v1.begin_ + v1.size_) (v1.begin_ + new_size)
    pure { v2 with size_ := new_size }
  else pure v

/-- The member `PushBack(const Type& item)`.  When `IncreaseCapacity` runs, the
block that held the elements is destroyed with its local `new_array` before
`items_[size_] = item` reads `item`; otherwise `item` is read from the block as
it is. -/
def PushBack [Element α] (v : SimpleVector α) (item : Arg α) : Outcome (SimpleVector α) := do
  let (v1, target) ← if v.size_ = v.capacity_ then do
      let v1 ← v.IncreaseCapacity (max 1 (v.capacity_ * 2 % SIZE_MOD))
      pure (v1, none)
    else pure (v, some v.items_)
  let x ← item.read target
  let items ← v1.items_.write v1.size_ x
  pure { v1 with items_ := items, size_ := (v1.size_ + 1) % SIZE_MOD }

/-- The member `PushBack(Type&& item)`: as the copy overload, the element is
move-assigned. -/
def PushBack_move [Element α] (v : SimpleVector α) (item : Arg α) :
    Outcome (SimpleVector α) := do
  let (v1, target) ← if v.size_ = v.capacity_ then do
      let v1 ← v.IncreaseCapacity (max 1 (v.capacity_ * 2 % SIZE_MOD))
      pure (v1, none)
    else pure (v, some v.items_)
  let x ← item.read target
  let items ← v1.items_.write v1.size_ x
  pure { v1 with items_ := items, size_ := (v1.size_ + 1) % SIZE_MOD }

/-- The member `Insert(ConstIterator pos, const Type& value)`; `pos` is the
offset of the position from `cbegin()`.  Yields the object after the call and
the returned iterator `begin() + distance`.  On the reallocating path `value`
is read while `items_` still owns the old block (the elements moved out of it
keep their value); on the other path it is read after
`std::move_backward` shifted the block. -/
def Insert [Element α] (v : SimpleVector α) (pos : Nat) (value : Arg α) :
    Outcome (SimpleVector α × Nat) := do
  let distance := pos - v.begin_
  if v.size_ = v.capacity_ then
    let new_capacity := max 1 (v.capacity_ * 2 % SIZE_MOD)
    let new_array : ArrayPtr α := ArrayPtr.alloc new_capacity
    let new_array ← std_copy v.items_ v.begin_ distance new_array 0
    let x ← value.read (some v.items_)
    let new_array ← new_array.write distance x
    let new_array ← std_copy v.items_ distance v.end_ new_array ((distance + 1) % SIZE_MOD)
    let (items, _old) := v.items_.swap new_array
    let v1 : SimpleVector α := { v with items_ := items, capacity_ := new_capacity }
    let v2 : SimpleVector α := { v1 with size_ := (v1.size_ + 1) % SIZE_MOD }
    pure (v2, v2.begin_ + distance)
  else
    let items ← std_copy_backward v.items_ distance v.end_ (v.end_ + 1)
    let x ← value.read (some items)
    let items ← items.write (v.begin_ + distance) x
    let v2 : SimpleVector α := { v with items_ := items, size_ := (v.size_ + 1) % SIZE_MOD }
    pure (v2, v2.begin_ + distance)

/-- The member `Insert(ConstIterator pos, Type&& value)`: as the copy overload,
the value is move-assigned into its slot. -/
def Insert_move [Element α] (v : SimpleVector α) (pos : Nat) (value : Arg α) :
    Outcome (SimpleVector α × Nat) := do
  let distance := pos - v.begin_
  if v.size_ = v.capacity_ then
    let new_capacity := max 1 (v.capacity_ * 2 % SIZE_MOD)
    let new_array : ArrayPtr α := ArrayPtr.alloc new_capacity
    let new_array ← std_copy v.items_ v.begin_ distance new_array 0
    let x ← value.read (some v.items_)
    let new_array ← new_array.write distance x
    let new_array ← std_copy v.items_ distance v.end_ new_array ((distance + 1) % SIZE_MOD)
    let (items, _old) := v.items_.swap new_array
    let v1 : SimpleVector α := { v with items_ := items, capacity_ := new_capacity }
    let v2 : SimpleVector α := { v1 with size_ := (v1.size_ + 1) % SIZE_MOD }
    pure (v2, v2.begin_ + distance)
  else
    let items ← std_copy_backward v.items_ distance v.end_ (v.end_ + 1)
    let x ← value.read (some items)
    let items ← items.write (v.begin_ + distance) x
    let v2 : SimpleVector α := { v with items_ := items, size_ := (v.size_ + 1) % SIZE_MOD }
    pure (v2, v2.begin_ + distance)

/-- The member `PopBack()`: `--size_` when `size_ != 0`. -/
def PopBack (v : SimpleVector α) : SimpleVector α :=
  if v.size_ ≠ 0 then { v with size_ := (v.size_ + SIZE_MOD - 1) % SIZE_MOD } else v

/-- The member `Erase(ConstIterator pos)`; `pos` is the offset of the position
from `cbegin()`.  Yields the object after the call and the returned iterator
`erasing_place`. -/
def Erase (v : SimpleVector α) (pos : Nat) : Outcome (SimpleVector α × Nat) := do
  let erasing_place := pos
  let items ← std_copy_within v.items_ (erasing_place + 1) v.end_ erasing_place
  pure ({ v with items_ := items, size_ := (v.size_ + SIZE_MOD - 1) % SIZE_MOD }, erasing_place)

/-- The member `swap(SimpleVector& other)`: buffers, capacities and sizes are
exchanged.  Yields this object and `other` after the call. -/
def swap (v other : SimpleVector α) : SimpleVector α × SimpleVector α :=
  let (items, other_items) := v.items_.swap other.items_
  ({ items_ := items, size_ := other.size_, capacity_ := other.capacity_ },
   { items_ := other_items, size_ := v.size_, capacity_ := v.capacity_ })

/-- The copy constructor `SimpleVector(const SimpleVector& other)`: a block of
`other.GetSize()` elements, `size_` and `capacity_` both `other.GetSize()`, then
`std::copy(other.begin(), other.end(), begin())`.  Yields `other` after the call
(it is `const`) and the new object. -/
def ctor_copy [Element α] (other : SimpleVector α) :
    Outcome (SimpleVector α × SimpleVector α) := do
  let this : SimpleVector α :=
    { items_ := ArrayPtr.alloc other.GetSize, size_ := other.GetSize,
      capacity_ := other.GetSize }
  let items ← std_copy other.items_ other.begin_ other.end_ this.items_ this.begin_
  pure (other, { this with items_ := items })

/-- The move constructor `SimpleVector(SimpleVector&& other)`:
`items_(other.capacity_)` with the default `size_ = 0`, `capacity_ = 0`, then
`swap(other)`.  Yields `other` after the call and the new object. -/
def ctor_move [Element α] (other : SimpleVector α) : SimpleVector α × SimpleVector α :=
  let this : SimpleVector α :=
    { items_ := ArrayPtr.alloc other.capacity_, size_ := 0, capacity_ := 0 }
  let (this1, other1) := this.swap other
  (other1, this1)

/-- The free function `operator==`:
`std::equal(lhs.begin(), lhs.end(), rhs.begin(), rhs.end())`. -/
def eq [BEq α] (lhs rhs : SimpleVector α) : Outcome Bool :=
  std_equal lhs.items_ lhs.begin_ lhs.end_ rhs.items_ rhs.begin_ rhs.end_

/-- The free function `operator!=`: `!(lhs == rhs)`. -/
def ne [BEq α] (lhs rhs : SimpleVector α) : Outcome Bool := do
  let r ← eq lhs rhs
  pure (!r)

/-- The logical sequence of a vector: the elements at `[begin(), end())`, the
first `size_` slots of the block. -/
def toList (v : SimpleVector α) : List α := v.items_.block.take v.size_

/-- Representation invariant of a live object: `size_` is at most `capacity_`,
the block holds at least `capacity_` elements, and the block is an array object,
so it has at most `PTRDIFF_MAX` elements. -/
structure Valid (v : SimpleVector α) : Prop where
  size_le : v.size_ ≤ v.capacity_
  capacity_le : v.capacity_ ≤ v.items_.block.length
  block_le : v.items_.block.length ≤ PTRDIFF_MAX

/-- The state in which the operations are called within their contract:
`size_` is at most `capacity_`, the block holds at least `capacity_` elements,
and `2 * capacity_` is representable in `size_t`. -/
structure InContract (v : SimpleVector α) : Prop where
  size_le : v.size_ ≤ v.capacity_
  capacity_le : v.capacity_ ≤ v.items_.block.length
  double_fits : 2 * v.capacity_ < SIZE_MOD

end SimpleVector

/-! The copy-only variant `simple_vector/simple_vector.h`, where it differs in
text from the copy/move-aware one. -/
namespace CopyOnly

variable {α : Type}

/-- The member `Insert(ConstIterator pos, const Type& value)` of the copy-only
variant (`std::copy`, `std::copy_backward`); `value` is read at the same two
places. -/
def Insert [Element α] (v : SimpleVector α) (pos : Nat) (value : Arg α) :
    Outcome (SimpleVector α × Nat) := do
  let distance := pos - v.begin_
  if v.size_ = v.capacity_ then
    let new_capacity := max 1 (v.capacity_ * 2 % SIZE_MOD)
    let new_array : ArrayPtr α := ArrayPtr.alloc new_capacity
    let new_array ← std_copy v.items_ v.begin_ pos new_array 0
    let x ← value.read (some v.items_)
    let new_array ← new_array.write distance x
    let new_array ← std_copy v.items_ pos v.end_ new_array ((distance + 1) % SIZE_MOD)
    let (items, _old) := v.items_.swap new_array
    let v1 : SimpleVector α := { v with items_ := items, capacity_ := new_capacity }
    let v2 : SimpleVector α := { v1 with size_ := (v1.size_ + 1) % SIZE_MOD }
    pure (v2, v2.begin_ + distance)
  else
    let items ← std_copy_backward v.items_ pos v.end_ (v.end_ + 1)
    let x ← value.read (some items)
    let items ← items.write (v.begin_ + distance) x
    let v2 : SimpleVector α := { v with items_ := items, size_ := (v.size_ + 1) % SIZE_MOD }
    pure (v2, v2.begin_ + distance)

/-- The member `Erase(ConstIterator pos)` of the copy-only variant
(`std::copy(pos + 1, cend(), erasing_place)`). -/
def Erase (v : SimpleVector α) (pos : Nat) : Outcome (SimpleVector α × Nat) := do
  let erasing_place := pos
  let items ← std_copy_within v.items_ (pos + 1) v.end_ erasing_place
  pure ({ v with items_ := items, size_ := (v.size_ + SIZE_MOD - 1) % SIZE_MOD }, erasing_place)

end CopyOnly

namespace SimpleVector

variable {α : Type}

/-- The statement `v[index] = x`: assignment through the reference that
`operator[](index)` returns. -/
def subscript_assign (v : SimpleVector α) (index : Nat) (x : α) : Outcome (SimpleVector α) := do
  let items ← v.items_.write index x
  pure { v with items_ := items }

/-- The program `SimpleVector b(a); stmt(b);` on two objects: `b` is
copy-constructed from `a`, then a statement that names only `b` runs.  Yields
`a` and `b` at the end. -/
def copy_then [Element α] (a : SimpleVector α)
    (stmt : SimpleVector α → Outcome (SimpleVector α)) :
    Outcome (SimpleVector α × SimpleVector α) := do
  let (a1, b) ← ctor_copy a
  let b1 ← stmt b
  pure (a1, b1)

end SimpleVector

/-- The class `ReserveProxyObj`: its member `capacity_to_reserve_`. -/
structure ReserveProxyObj where
  capacity_to_reserve_ : Nat
  deriving DecidableEq

/-- The member `ReserveProxyObj::GetNewCapacity()`. -/
def ReserveProxyObj.GetNewCapacity (obj : ReserveProxyObj) : Nat := obj.capacity_to_reserve_

/-- The free function `Reserve(size_t new_capacity)`, which makes the proxy
object. -/
def Reserve_proxy (new_capacity : Nat) : ReserveProxyObj := ⟨new_capacity⟩

section Algorithms

variable {α : Type}

/-- Body of `std::lexicographical_compare` with `n1` elements left in the first
range and `n2` in the second: while both ranges have elements, `true` when
`*first1 < *first2`, `false` when `*first2 < *first1`, else both advance; after
the loop the result is `first1 == last1 && first2 != last2`. -/
def lexicographical_compare_loop [LT α] [DecidableRel (fun x y : α => x < y)]
    (a : ArrayPtr α) (first1 : Nat) (b : ArrayPtr α) (first2 : Nat) : Nat → Nat → Outcome Bool
  | 0, n2 => .ok (decide (n2 ≠ 0))
  | _ + 1, 0 => .ok false
  | n1 + 1, n2 + 1 => do
    let x ← a.read first1
    let y ← b.read first2
    if x < y then .ok true
    else if y < x then .ok false
    else lexicographical_compare_loop a (first1 + 1) b (first2 + 1) n1 n2

/-- The call `std::lexicographical_compare(first1, last1, first2, last2)`. -/
def std_lexicographical_compare [LT α] [DecidableRel (fun x y : α => x < y)]
    (a : ArrayPtr α) (first1 last1 : Nat) (b : ArrayPtr α) (first2 last2 : Nat) :
    Outcome Bool :=
  if first1 ≤ last1 ∧ first2 ≤ last2 then
    lexicographical_compare_loop a first1 b first2 (last1 - first1) (last2 - first2)
  else .undefined

end Algorithms

namespace SimpleVector

variable {α : Type}

/-- The constructor `SimpleVector(size_t size)`: a block of `size` elements,
`size_` and `capacity_` both `size`, then `Fill(begin(), end())`. -/
def ctor_size [Element α] (size : Nat) : Outcome (SimpleVector α) :=
  let this : SimpleVector α :=
    { items_ := ArrayPtr.alloc size, size_ := size, capacity_ := size }
  this.Fill this.begin_ this.end_

/-- The constructor `SimpleVector(size_t size, const Type& value)`: a block of
`size` elements, then `std::fill(begin(), end(), value)`. -/
def ctor_fill [Element α] (size : Nat) (value : α) : Outcome (SimpleVector α) := do
  let this : SimpleVector α :=
    { items_ := ArrayPtr.alloc size, size_ := size, capacity_ := size }
  let items ← std_fill this.items_ this.begin_ this.end_ value
  pure { this with items_ := items }

/-- The constructor `SimpleVector(std::initializer_list<Type> init)`: a block of
`init.size()` elements, then `std::move(init.begin(), init.end(), begin())`; the
array behind the list is the source block. -/
def ctor_init_list [Element α] (init : List α) : Outcome (SimpleVector α) := do
  let this : SimpleVector α :=
    { items_ := ArrayPtr.alloc init.length, size_ := init.length, capacity_ := init.length }
  let items ← std_copy ⟨some init⟩ 0 init.length this.items_ this.begin_
  pure { this with items_ := items }

/-- The constructor `SimpleVector(ReserveProxyObj new_capacity)`: the members
get their default initialisers, then `Reserve(new_capacity.GetNewCapacity())`. -/
def ctor_reserve [Element α] (new_capacity : ReserveProxyObj) : Outcome (SimpleVector α) :=
  (ctor_default : SimpleVector α).Reserve new_capacity.GetNewCapacity

/-- The copy assignment `operator=(const SimpleVector& rhs)` when `rhs` is
another object (`this != &rhs`): a copy of `rhs` is made and swapped in, the
copy (holding the old state) is destroyed.  Yields this object and `rhs` after
the call. -/
def assign_copy [Element α] (v rhs : SimpleVector α) :
    Outcome (SimpleVector α × SimpleVector α) := do
  let (rhs1, copy) ← ctor_copy rhs
  let (v1, _copy) := v.swap copy
  pure (v1, rhs1)

/-- The copy assignment `operator=(const SimpleVector& rhs)` when `rhs` is this
object (`this == &rhs`): the guard skips the body. -/
def assign_copy_self (v : SimpleVector α) : SimpleVector α := v

/-- The move assignment `operator=(SimpleVector&& rhs)` when `rhs` is another
object: `swap(rhs)`.  Yields this object and `rhs` after the call. -/
def assign_move (v rhs : SimpleVector α) : SimpleVector α × SimpleVector α :=
  v.swap rhs

/-- The move assignment `operator=(SimpleVector&& rhs)` when `rhs` is this
object: the guard skips the body. -/
def assign_move_self (v : SimpleVector α) : SimpleVector α := v

/-- The free function `operator<`:
`std::lexicographical_compare(lhs.begin(), lhs.end(), rhs.begin(), rhs.end())`. -/
def lt [LT α] [DecidableRel (fun x y : α => x < y)] (lhs rhs : SimpleVector α) :
    Outcome Bool :=
  std_lexicographical_compare lhs.items_ lhs.begin_ lhs.end_ rhs.items_ rhs.begin_ rhs.end_

/-- The free function `operator>=`: `!(lhs < rhs)`. -/
def ge [LT α] [DecidableRel (fun x y : α => x < y)] (lhs rhs : SimpleVector α) :
    Outcome Bool := do
  let r ← lt lhs rhs
  pure (!r)

/-- The free function `operator<=`: `rhs >= lhs`. -/
def le [LT α] [DecidableRel (fun x y : α => x < y)] (lhs rhs : SimpleVector α) :
    Outcome Bool :=
  ge rhs lhs

/-- The free function `operator>`: `rhs < lhs`. -/
def gt [LT α] [DecidableRel (fun x y : α => x < y)] (lhs rhs : SimpleVector α) :
    Outcome Bool :=
  lt rhs lhs

/-- The program `v.PushBack(x1); ...; v.PushBack(xn);`: consecutive `PushBack`
calls with the items of the list, in order; each item is an object that is not
an element of the vector (a literal, a local). -/
def PushBack_all [Element α] (v : SimpleVector α) : List α → Outcome (SimpleVector α)
  | [] => pure v
  | x :: xs => do
    let v1 ← v.PushBack (.object x)
    PushBack_all v1 xs

/-- Number of element transfers from the old block into the new one that one
call of `IncreaseCapacity` performs: the iterations of
`std::move(begin(), end(), new_array.Get())`, that is `end() - begin()`. -/
def IncreaseCapacity_transfers (v : SimpleVector α) : Nat := v.end_ - v.begin_

/-- Number of element transfers done by `IncreaseCapacity` inside one call of
`PushBack`: it is called only when `size_ == capacity_`. -/
def PushBack_transfers (v : SimpleVector α) : Nat :=
  if v.size_ = v.capacity_ then v.IncreaseCapacity_transfers else 0

/-- Total of the element transfers done by `IncreaseCapacity` across the
consecutive `PushBack` calls of `PushBack_all`. -/
def PushBack_all_transfers [Element α] (v : SimpleVector α) : List α → Outcome Nat
  | [] => pure 0
  | x :: xs => do
    let v1 ← v.PushBack (.object x)
    let t ← PushBack_all_transfers v1 xs
    pure (v.PushBack_transfers + t)

end SimpleVector

/-- The words of the specification for `<`: the first sequence is smaller at
the first index where the two differ, or it is a proper prefix of the second
(it is shorter and agrees with the second on all its indices). -/
def LexLess {α : Type} [LT α] (s t : List α) : Prop :=
  (∃ (k : Nat) (x y : α), s[k]? = some x ∧ t[k]? = some y ∧ x < y ∧
    ∀ i : Nat, i < k → s[i]? = t[i]?) ∨
  (s.length < t.length ∧ ∀ i : Nat, i < s.length → s[i]? = t[i]?)

/-- The comparison of `std::lexicographical_compare` written on two lists. -/
def lexLt {α : Type} [LT α] [DecidableRel (fun x y : α => x < y)] : List α → List α → Bool
  | [], [] => false
  | [], _ :: _ => true
  | _ :: _, [] => false
  | x :: xs, y :: ys => if x < y then true else if y < x then false else lexLt xs ys

/-! ## Concrete vectors of `int` used to instantiate the results -/

/-- The vector `{1, 2, 3}` with capacity 4: what three `PushBack` calls leave. -/
def sample_spare : SimpleVector Int := ⟨⟨some [1, 2, 3, -1]⟩, 3, 4⟩

/-- The vector `{1, 9, 2, 3}` with capacity 4: a full block. -/
def sample_full : SimpleVector Int := ⟨⟨some [1, 9, 2, 3]⟩, 4, 4⟩

/-- The vector `{5, 6}` with capacity 4 whose unused slots hold the stale
values 7 and 8 (what `{5, 6, 7, 8}` is after two `PopBack` calls). -/
def sample_stale : SimpleVector Int := ⟨⟨some [5, 6, 7, 8]⟩, 2, 4⟩

/-- The vector `{1, 2, 4}` with capacity 3. -/
def sample_124 : SimpleVector Int := ⟨⟨some [1, 2, 4]⟩, 3, 3⟩

/-- The vector `{1, 2}` with capacity 3, the unused slot holding a stale 7. -/
def sample_12 : SimpleVector Int := ⟨⟨some [1, 2, 7]⟩, 2, 3⟩

/-- The vector `{1, 2, 3}` with capacity 3: a copy of `sample_spare`. -/
def sample_tight : SimpleVector Int := ⟨⟨some [1, 2, 3]⟩, 3, 3⟩

/-! ## Auxiliary facts about the buffer primitives and the range loops -/

section Lemmas
variable {α : Type}

@[simp] theorem Outcome.ok_bind {α β : Type} (a : α) (f : α → Outcome β) :
    (Outcome.ok a >>= f) = f a := rfl

@[simp] theorem Outcome.pure_eq_ok {α : Type} (a : α) : (pure a : Outcome α) = Outcome.ok a := rfl

@[simp] theorem Arg.read_object (x : α) (target : Option (ArrayPtr α)) :
    (Arg.object x).read target = .ok x := rfl

@[simp] theorem Arg.read_element_some (i : Nat) (p : ArrayPtr α) :
    (Arg.element i : Arg α).read (some p) = p.read i := rfl

@[simp] theorem Arg.read_element_none (i : Nat) :
    (Arg.element i : Arg α).read none = .undefined := rfl

theorem ArrayPtr.block_alloc [Element α] (n : Nat) :
    (ArrayPtr.alloc n : ArrayPtr α).block = List.replicate n Element.default_init := by
  unfold ArrayPtr.alloc ArrayPtr.block
  by_cases h : n = 0
  · simp [h]
  · simp [h]

theorem ArrayPtr.read_of_lt (p : ArrayPtr α) (i : Nat) (h : i < p.block.length) :
    p.read i = .ok (p.block.get ⟨i, h⟩) := by
  unfold ArrayPtr.read
  rw [List.getElem?_eq_getElem h]
  rfl

theorem ArrayPtr.write_of_lt (p : ArrayPtr α) (i : Nat) (x : α) (h : i < p.block.length) :
    p.write i x = .ok ⟨some (p.block.set i x)⟩ := by
  unfold ArrayPtr.write
  simp [h]

@[simp] theorem ArrayPtr.block_mk_some (b : List α) : (ArrayPtr.mk (some b)).block = b := rfl

theorem copy_loop_spec (src : ArrayPtr α) (n : Nat) : ∀ (first : Nat) (dst : ArrayPtr α) (d : Nat),
    first + n ≤ src.block.length → d + n ≤ dst.block.length →
    ∃ r, copy_loop src first dst d n = .ok r ∧ r.block.length = dst.block.length ∧
      ∀ i, r.block[i]? = if d ≤ i ∧ i < d + n then src.block[first + (i - d)]? else dst.block[i]? := by
  induction n with
  | zero =>
    intro first dst d _ _
    refine ⟨dst, rfl, rfl, ?_⟩
    intro i
    have : ¬ (d ≤ i ∧ i < d + 0) := by omega
    rw [if_neg this]
  | succ n ih =>
    intro first dst d hs hd
    have h1 : first < src.block.length := by omega
    have h2 : d < dst.block.length := by omega
    obtain ⟨r, hr, hlen, hget⟩ := ih (first + 1) ⟨some (dst.block.set d (src.block.get ⟨first, h1⟩))⟩ (d + 1)
      (by omega) (by simp; omega)
    refine ⟨r, ?_, ?_, ?_⟩
    · simp only [copy_loop, ArrayPtr.read_of_lt _ _ h1, ArrayPtr.write_of_lt _ _ _ h2,
        Outcome.ok_bind]
      exact hr
    · simpa using hlen
    · intro i
      rw [hget i]
      simp only [ArrayPtr.block_mk_some, List.getElem?_set]
      by_cases c1 : d + 1 ≤ i ∧ i < d + 1 + n
      · have c2 : d ≤ i ∧ i < d + (n + 1) := by omega
        rw [if_pos c1, if_pos c2]
        congr 1
        omega
      · rw [if_neg c1]
        by_cases c3 : d = i
        · subst c3
          have c2 : d ≤ d ∧ d < d + (n + 1) := by omega
          rw [if_pos c2, if_pos rfl, if_pos h2]
          simp [List.getElem?_eq_getElem h1]
        · have c2 : ¬ (d ≤ i ∧ i < d + (n + 1)) := by omega
          rw [if_neg c2, if_neg c3]

theorem copy_within_loop_spec (n : Nat) : ∀ (p : ArrayPtr α) (first d : Nat),
    first + n ≤ p.block.length → d ≤ first →
    ∃ r, copy_within_loop p first d n = .ok r ∧ r.block.length = p.block.length ∧
      ∀ i, r.block[i]? = if d ≤ i ∧ i < d + n then p.block[first + (i - d)]? else p.block[i]? := by
  induction n with
  | zero =>
    intro p first d _ _
    refine ⟨p, rfl, rfl, ?_⟩
    intro i
    have : ¬ (d ≤ i ∧ i < d + 0) := by omega
    rw [if_neg this]
  | succ n ih =>
    intro p first d hs hd
    have h1 : first < p.block.length := by omega
    have h2 : d < p.block.length := by omega
    obtain ⟨r, hr, hlen, hget⟩ := ih ⟨some (p.block.set d (p.block.get ⟨first, h1⟩))⟩ (first + 1) (d + 1)
      (by simp; omega) (by omega)
    refine ⟨r, ?_, ?_, ?_⟩
    · simp only [copy_within_loop, ArrayPtr.read_of_lt _ _ h1, ArrayPtr.write_of_lt _ _ _ h2,
        Outcome.ok_bind]
      exact hr
    · simpa using hlen
    · intro i
      rw [hget i]
      simp only [ArrayPtr.block_mk_some, List.getElem?_set]
      by_cases c1 : d + 1 ≤ i ∧ i < d + 1 + n
      · have c2 : d ≤ i ∧ i < d + (n + 1) := by omega
        have c3 : ¬ (d = first + 1 + (i - (d + 1))) := by omega
        rw [if_pos c1, if_pos c2, if_neg c3]
        congr 1
        omega
      · rw [if_neg c1]
        by_cases c3 : d = i
        · subst c3
          have c2 : d ≤ d ∧ d < d + (n + 1) := by omega
          rw [if_pos c2, if_pos rfl, if_pos h2]
          simp [List.getElem?_eq_getElem h1]
        · have c2 : ¬ (d ≤ i ∧ i < d + (n + 1)) := by omega
          rw [if_neg c2, if_neg c3]

theorem copy_backward_loop_spec (n : Nat) : ∀ (p : ArrayPtr α) (last d_last : Nat),
    n ≤ last → last ≤ d_last → d_last ≤ p.block.length →
    ∃ r, copy_backward_loop p last d_last n = .ok r ∧ r.block.length = p.block.length ∧
      ∀ i, r.block[i]? =
        if d_last - n ≤ i ∧ i < d_last then p.block[i - (d_last - last)]? else p.block[i]? := by
  induction n with
  | zero =>
    intro p last d_last _ _ _
    refine ⟨p, rfl, rfl, ?_⟩
    intro i
    have : ¬ (d_last - 0 ≤ i ∧ i < d_last) := by omega
    rw [if_neg this]
  | succ n ih =>
    intro p last d_last hn hl hd
    have h1 : last - 1 < p.block.length := by omega
    have h2 : d_last - 1 < p.block.length := by omega
    have h0 : ¬ (last = 0 ∨ d_last = 0) := by omega
    obtain ⟨r, hr, hlen, hget⟩ := ih ⟨some (p.block.set (d_last - 1) (p.block.get ⟨last - 1, h1⟩))⟩
      (last - 1) (d_last - 1) (by omega) (by omega) (by simp; omega)
    refine ⟨r, ?_, ?_, ?_⟩
    · simp only [copy_backward_loop, if_neg h0, ArrayPtr.read_of_lt _ _ h1,
        ArrayPtr.write_of_lt _ _ _ h2, Outcome.ok_bind]
      exact hr
    · simpa using hlen
    · intro i
      rw [hget i]
      simp only [ArrayPtr.block_mk_some, List.getElem?_set]
      by_cases c1 : d_last - 1 - n ≤ i ∧ i < d_last - 1
      · have c2 : d_last - (n + 1) ≤ i ∧ i < d_last := by omega
        have c3 : ¬ (d_last - 1 = i - (d_last - 1 - (last - 1))) := by omega
        rw [if_pos c1, if_pos c2, if_neg c3]
        congr 1
        omega
      · rw [if_neg c1]
        by_cases c3 : d_last - 1 = i
        · subst c3
          have c2 : d_last - (n + 1) ≤ d_last - 1 ∧ d_last - 1 < d_last := by omega
          have e : d_last - 1 - (d_last - last) = last - 1 := by omega
          rw [if_pos c2, if_pos rfl, if_pos h2, e]
          simp [List.getElem?_eq_getElem h1]
        · have c2 : ¬ (d_last - (n + 1) ≤ i ∧ i < d_last) := by omega
          rw [if_neg c2, if_neg c3]

theorem fill_loop_spec (value : α) (n : Nat) : ∀ (p : ArrayPtr α) (first : Nat),
    first + n ≤ p.block.length →
    ∃ r, fill_loop p first value n = .ok r ∧ r.block.length = p.block.length ∧
      ∀ i, r.block[i]? = if first ≤ i ∧ i < first + n then some value else p.block[i]? := by
  induction n with
  | zero =>
    intro p first _
    refine ⟨p, rfl, rfl, ?_⟩
    intro i
    have : ¬ (first ≤ i ∧ i < first + 0) := by omega
    rw [if_neg this]
  | succ n ih =>
    intro p first hs
    have h2 : first < p.block.length := by omega
    obtain ⟨r, hr, hlen, hget⟩ := ih ⟨some (p.block.set first value)⟩ (first + 1) (by simp; omega)
    refine ⟨r, ?_, ?_, ?_⟩
    · simp only [fill_loop, ArrayPtr.write_of_lt _ _ _ h2, Outcome.ok_bind]
      exact hr
    · simpa using hlen
    · intro i
      rw [hget i]
      simp only [ArrayPtr.block_mk_some, List.getElem?_set]
      by_cases c1 : first + 1 ≤ i ∧ i < first + 1 + n
      · have c2 : first ≤ i ∧ i < first + (n + 1) := by omega
        rw [if_pos c1, if_pos c2]
      · rw [if_neg c1]
        by_cases c3 : first = i
        · subst c3
          have c2 : first ≤ first ∧ first < first + (n + 1) := by omega
          rw [if_pos c2, if_pos rfl, if_pos h2]
        · have c2 : ¬ (first ≤ i ∧ i < first + (n + 1)) := by omega
          rw [if_neg c2, if_neg c3]

theorem equal_loop_spec [BEq α] (a b : ArrayPtr α) (n : Nat) : ∀ (f1 f2 : Nat),
    f1 + n ≤ a.block.length → f2 + n ≤ b.block.length →
    ∃ r, equal_loop a f1 b f2 n = .ok r ∧
      (r = true ↔ ∀ j, j < n → ∀ x y, a.block[f1 + j]? = some x → b.block[f2 + j]? = some y →
        (x == y) = true) := by
  induction n with
  | zero =>
    intro f1 f2 _ _
    refine ⟨true, rfl, ?_⟩
    simp
  | succ n ih =>
    intro f1 f2 h1 h2
    have ha : f1 < a.block.length := by omega
    have hb : f2 < b.block.length := by omega
    simp only [equal_loop, ArrayPtr.read_of_lt _ _ ha, ArrayPtr.read_of_lt _ _ hb,
      Outcome.ok_bind]
    by_cases hxy : (a.block.get ⟨f1, ha⟩ == b.block.get ⟨f2, hb⟩) = true
    · rw [if_pos hxy]
      obtain ⟨r, hr, hiff⟩ := ih (f1 + 1) (f2 + 1) (by omega) (by omega)
      refine ⟨r, hr, ?_⟩
      rw [hiff]
      constructor
      · intro h j hj x y hx hy
        cases j with
        | zero =>
          rw [Nat.add_zero, List.getElem?_eq_getElem ha] at hx
          rw [Nat.add_zero, List.getElem?_eq_getElem hb] at hy
          cases hx; cases hy
          exact hxy
        | succ j =>
          have e1 : f1 + (j + 1) = f1 + 1 + j := by omega
          have e2 : f2 + (j + 1) = f2 + 1 + j := by omega
          rw [e1] at hx
          rw [e2] at hy
          exact h j (by omega) x y hx hy
      · intro h j hj x y hx hy
        have e1 : f1 + 1 + j = f1 + (j + 1) := by omega
        have e2 : f2 + 1 + j = f2 + (j + 1) := by omega
        rw [e1] at hx
        rw [e2] at hy
        exact h (j + 1) (by omega) x y hx hy
    · rw [if_neg hxy]
      refine ⟨false, rfl, ?_⟩
      constructor
      · intro h
        cases h
      · intro h
        exact absurd (h 0 (by omega) _ _ (List.getElem?_eq_getElem ha) (List.getElem?_eq_getElem hb)) hxy

end Lemmas

/-! ## Auxiliary facts about the operations of `SimpleVector` -/

namespace SimpleVector
variable {α : Type}

theorem toList_getElem? (v : SimpleVector α) (i : Nat) :
    (toList v)[i]? = if i < v.size_ then v.items_.block[i]? else none := by
  unfold toList
  rw [List.getElem?_take]

theorem length_toList (v : SimpleVector α) (h : v.size_ ≤ v.items_.block.length) :
    (toList v).length = v.size_ := by
  unfold toList
  simp [h]

theorem toList_push (v : SimpleVector α) (items : ArrayPtr α) (x : α) (c : Nat)
    (hs : v.size_ ≤ v.items_.block.length)
    (hat : items.block[v.size_]? = some x)
    (hget : ∀ i, i < v.size_ → items.block[i]? = v.items_.block[i]?) :
    toList (⟨items, v.size_ + 1, c⟩ : SimpleVector α) = toList v ++ [x] := by
  apply List.ext_getElem?
  intro i
  rw [toList_getElem?, List.getElem?_append, length_toList v hs, toList_getElem?]
  show (if i < v.size_ + 1 then items.block[i]? else none) = _
  by_cases c0 : i < v.size_
  · rw [if_pos (by omega), if_pos c0, if_pos c0, hget i c0]
  · rw [if_neg c0]
    by_cases c1 : i = v.size_
    · subst c1
      rw [if_pos (by omega), hat]
      simp
    · rw [if_neg (by omega)]
      have : i - v.size_ = (i - v.size_ - 1) + 1 := by omega
      rw [this]
      simp

theorem IncreaseCapacity_spec [Element α] (v : SimpleVector α) (c : Nat)
    (h1 : v.size_ ≤ v.items_.block.length) (h2 : v.size_ ≤ c) :
    ∃ items : ArrayPtr α, v.IncreaseCapacity c = .ok ⟨items, v.size_, c⟩ ∧
      items.block.length = c ∧
      ∀ i, items.block[i]? = if i < v.size_ then v.items_.block[i]?
        else if i < c then some Element.default_init else none := by
  obtain ⟨r, hr, hlen, hget⟩ := copy_loop_spec v.items_ v.size_ 0 (ArrayPtr.alloc c) 0
    (by omega) (by rw [ArrayPtr.block_alloc]; simp; omega)
  refine ⟨r, ?_, ?_, ?_⟩
  · simp only [IncreaseCapacity, std_copy, begin_, end_, Nat.zero_add, Nat.zero_le, if_true,
      Nat.sub_zero, hr, Outcome.ok_bind, ArrayPtr.swap, Outcome.pure_eq_ok]
  · rw [hlen, ArrayPtr.block_alloc]; simp
  · intro i
    rw [hget i, ArrayPtr.block_alloc, List.getElem?_replicate]
    simp

theorem inContract_capacity_lt (v : SimpleVector α) (hv : v.InContract) :
    v.capacity_ < 2 ^ 63 := by
  have h := hv.double_fits
  unfold SIZE_MOD at h
  omega

theorem inContract_double_capacity (v : SimpleVector α) (hv : v.InContract) :
    v.capacity_ * 2 % SIZE_MOD = 2 * v.capacity_ := by
  have h := inContract_capacity_lt v hv
  unfold SIZE_MOD
  omega

theorem inContract_succ_size (v : SimpleVector α) (hv : v.InContract) :
    (v.size_ + 1) % SIZE_MOD = v.size_ + 1 := by
  have h := inContract_capacity_lt v hv
  have h1 := hv.size_le
  unfold SIZE_MOD
  omega

theorem Valid.inContract (v : SimpleVector α) (hv : v.Valid) : v.InContract := by
  have h1 := hv.capacity_le
  have h2 := hv.block_le
  refine ⟨hv.size_le, hv.capacity_le, ?_⟩
  unfold PTRDIFF_MAX at h2
  unfold SIZE_MOD
  omega

theorem Valid.capacity_lt (v : SimpleVector α) (hv : v.Valid) : v.capacity_ < 2 ^ 63 := by
  have h1 := hv.capacity_le
  have h2 := hv.block_le
  unfold PTRDIFF_MAX at h2
  omega

theorem Valid.double_capacity (v : SimpleVector α) (hv : v.Valid) :
    v.capacity_ * 2 % SIZE_MOD = 2 * v.capacity_ := by
  have h := Valid.capacity_lt v hv
  unfold SIZE_MOD
  omega

theorem Valid.succ_size (v : SimpleVector α) (hv : v.Valid) :
    (v.size_ + 1) % SIZE_MOD = v.size_ + 1 := by
  have h := Valid.capacity_lt v hv
  have h1 := hv.size_le
  unfold SIZE_MOD
  omega

theorem pred_size (n : Nat) (h0 : 0 < n) (h : n < SIZE_MOD) :
    (n + SIZE_MOD - 1) % SIZE_MOD = n - 1 := by
  unfold SIZE_MOD at *
  omega

theorem Arg.read_some_ok (a : Arg α) (p : ArrayPtr α)
    (h : ∀ i, a = .element i → i < p.block.length) :
    ∃ x, a.read (some p) = .ok x ∧ (∀ y, a = .object y → x = y) ∧
      (∀ i, a = .element i → p.block[i]? = some x) := by
  cases a with
  | object y =>
    refine ⟨y, rfl, ?_, ?_⟩
    · intro z hz
      cases hz
      rfl
    · intro i hi
      cases hi
  | element i =>
    have hi := h i rfl
    refine ⟨p.block.get ⟨i, hi⟩, ArrayPtr.read_of_lt p i hi, ?_, ?_⟩
    · intro z hz
      cases hz
    · intro j hj
      cases hj
      exact List.getElem?_eq_getElem hi

/-- What `PushBack` reads as `item`: an object of its own is read as it is; a
reference to a live element is read from the vector's block when the vector
has spare capacity (the block is then still the owned one at the read). -/
theorem PushBack_arg_readable (v : SimpleVector α) (item : Arg α)
    (hs : v.size_ ≤ v.capacity_) (hc : v.capacity_ ≤ v.items_.block.length)
    (hitem : ∀ i, item = .element i → v.size_ ≠ v.capacity_ ∧ i < v.size_) :
    ∃ x, item.read (if v.size_ = v.capacity_ then none else some v.items_) = .ok x ∧
      (∀ y, item = .object y → x = y) ∧
      (∀ i, item = .element i → v.items_.block[i]? = some x) := by
  cases item with
  | object y =>
    refine ⟨y, rfl, ?_, ?_⟩
    · intro z hz
      cases hz
      rfl
    · intro i hi
      cases hi
  | element i =>
    obtain ⟨hnf, hi⟩ := hitem i rfl
    have hb : i < v.items_.block.length := by omega
    refine ⟨v.items_.block.get ⟨i, hb⟩, ?_, ?_, ?_⟩
    · rw [if_neg hnf]
      exact ArrayPtr.read_of_lt _ _ hb
    · intro z hz
      cases hz
    · intro j hj
      cases hj
      exact List.getElem?_eq_getElem hb

theorem PushBack_spec_arg [Element α] (v : SimpleVector α) (item : Arg α) (x : α)
    (hv : v.InContract)
    (hx : item.read (if v.size_ = v.capacity_ then none else some v.items_) = .ok x) :
    ∃ items : ArrayPtr α,
      v.PushBack item = .ok ⟨items, v.size_ + 1,
        if v.size_ = v.capacity_ then max 1 (2 * v.capacity_) else v.capacity_⟩ ∧
      items.block.length =
        (if v.size_ = v.capacity_ then max 1 (2 * v.capacity_) else v.items_.block.length) ∧
      items.block[v.size_]? = some x ∧
      ∀ i, i < v.size_ → items.block[i]? = v.items_.block[i]? := by
  have hs := hv.size_le
  have hc := hv.capacity_le
  have hlt := inContract_capacity_lt v hv
  by_cases hfull : v.size_ = v.capacity_
  · obtain ⟨r, hr, hlen, hget⟩ := IncreaseCapacity_spec v (max 1 (2 * v.capacity_))
      (by omega) (by omega)
    have hw : v.size_ < r.block.length := by omega
    rw [if_pos hfull] at hx
    refine ⟨⟨some (r.block.set v.size_ x)⟩, ?_, ?_, ?_, ?_⟩
    · simp only [PushBack, if_pos hfull, inContract_double_capacity v hv, hr, Outcome.ok_bind,
        hx, ArrayPtr.write_of_lt _ _ _ hw, Outcome.pure_eq_ok]
      congr 2
      have := inContract_succ_size v hv
      simpa using this
    · simp [hfull, hlen]
    · simp [List.getElem?_set, hw]
    · intro i hi
      have hne : ¬ (v.size_ = i) := by omega
      simp only [ArrayPtr.block_mk_some, List.getElem?_set, if_neg hne]
      rw [hget i, if_pos hi]
  · have hw : v.size_ < v.items_.block.length := by omega
    rw [if_neg hfull] at hx
    refine ⟨⟨some (v.items_.block.set v.size_ x)⟩, ?_, ?_, ?_, ?_⟩
    · simp only [PushBack, if_neg hfull, Outcome.pure_eq_ok, Outcome.ok_bind, hx,
        ArrayPtr.write_of_lt _ _ _ hw, inContract_succ_size v hv]
    · simp [hfull]
    · simp [List.getElem?_set, hw]
    · intro i hi
      have hne : ¬ (v.size_ = i) := by omega
      simp only [ArrayPtr.block_mk_some, List.getElem?_set, if_neg hne]

theorem PushBack_spec_gen [Element α] (v : SimpleVector α) (x : α) (hv : v.InContract) :
    ∃ items : ArrayPtr α,
      v.PushBack (.object x) = .ok ⟨items, v.size_ + 1,
        if v.size_ = v.capacity_ then max 1 (2 * v.capacity_) else v.capacity_⟩ ∧
      items.block.length =
        (if v.size_ = v.capacity_ then max 1 (2 * v.capacity_) else v.items_.block.length) ∧
      items.block[v.size_]? = some x ∧
      ∀ i, i < v.size_ → items.block[i]? = v.items_.block[i]? :=
  PushBack_spec_arg v (.object x) x hv (Arg.read_object x _)

theorem PushBack_spec [Element α] (v : SimpleVector α) (x : α) (hv : v.Valid) :
    ∃ items : ArrayPtr α,
      v.PushBack (.object x) = .ok ⟨items, v.size_ + 1,
        if v.size_ = v.capacity_ then max 1 (2 * v.capacity_) else v.capacity_⟩ ∧
      items.block.length =
        (if v.size_ = v.capacity_ then max 1 (2 * v.capacity_) else v.items_.block.length) ∧
      items.block[v.size_]? = some x ∧
      ∀ i, i < v.size_ → items.block[i]? = v.items_.block[i]? :=
  PushBack_spec_gen v x (Valid.inContract v hv)

theorem PushBack_full_element [Element α] (v : SimpleVector α) (index : Nat)
    (hv : v.InContract) (hfull : v.size_ = v.capacity_) :
    v.PushBack (.element index) = .undefined := by
  have hs := hv.size_le
  have hc := hv.capacity_le
  obtain ⟨r, hr, _, _⟩ := IncreaseCapacity_spec v (max 1 (2 * v.capacity_))
    (by omega) (by omega)
  simp only [PushBack, if_pos hfull, inContract_double_capacity v hv, hr, Outcome.ok_bind,
    Outcome.pure_eq_ok, Arg.read_element_none]
  rfl

theorem Insert_spec_arg [Element α] (v : SimpleVector α) (k : Nat) (value : Arg α)
    (hv : v.InContract) (hk : k ≤ v.size_)
    (hvalue : ∀ i, value = .element i → i < v.items_.block.length) :
    ∃ (items : ArrayPtr α) (x : α),
      v.Insert k value = .ok (⟨items, v.size_ + 1,
        if v.size_ = v.capacity_ then max 1 (2 * v.capacity_) else v.capacity_⟩, k) ∧
      items.block.length =
        (if v.size_ = v.capacity_ then max 1 (2 * v.capacity_) else v.items_.block.length) ∧
      (∀ i, i < v.size_ + 1 → items.block[i]? =
        if i < k then v.items_.block[i]? else if i = k then some x
          else v.items_.block[i - 1]?) ∧
      (∀ y, value = .object y → x = y) ∧
      (∀ i, value = .element i →
        v.items_.block[if v.size_ ≠ v.capacity_ ∧ k < i ∧ i ≤ v.size_ then i - 1 else i]?
          = some x) := by
  have hs := hv.size_le
  have hc := hv.capacity_le
  have hlt := inContract_capacity_lt v hv
  have hsucc := inContract_succ_size v hv
  have hk1 : (k + 1) % SIZE_MOD = k + 1 := by
    unfold SIZE_MOD; omega
  by_cases hfull : v.size_ = v.capacity_
  · obtain ⟨r1, hr1, hlen1, hget1⟩ := copy_loop_spec v.items_ k 0
      (ArrayPtr.alloc (max 1 (2 * v.capacity_))) 0
      (by omega) (by rw [ArrayPtr.block_alloc]; simp; omega)
    rw [ArrayPtr.block_alloc, List.length_replicate] at hlen1
    have hw : k < r1.block.length := by omega
    obtain ⟨x, hread, hobj, hel⟩ := Arg.read_some_ok value v.items_ hvalue
    obtain ⟨r3, hr3, hlen3, hget3⟩ := copy_loop_spec v.items_ (v.size_ - k) k
      ⟨some (r1.block.set k x)⟩ (k + 1) (by omega) (by simp; omega)
    refine ⟨r3, x, ?_, ?_, ?_, hobj, ?_⟩
    · have e : v.size_ - k = 0 + v.size_ - k := by omega
      simp only [Insert, begin_, end_, Nat.sub_zero, if_pos hfull, inContract_double_capacity v hv,
        std_copy, Nat.zero_le, if_true, hr1, Outcome.ok_bind, hread,
        ArrayPtr.write_of_lt _ _ _ hw,
        hk1, Nat.zero_add, if_pos hk, hr3, ArrayPtr.swap, Outcome.pure_eq_ok, hsucc]
    · simp only [if_pos hfull, hlen3, ArrayPtr.block_mk_some, List.length_set, hlen1]
    · intro i hi
      rw [hget3 i]
      simp only [ArrayPtr.block_mk_some, List.getElem?_set]
      by_cases c1 : i < k
      · have c2 : ¬ (k + 1 ≤ i ∧ i < k + 1 + (v.size_ - k)) := by omega
        have c3 : ¬ (k = i) := by omega
        have c4 : 0 ≤ i ∧ i < 0 + k := by omega
        rw [if_neg c2, if_neg c3, hget1 i, if_pos c4, if_pos c1]
        simp
      · by_cases c5 : i = k
        · subst c5
          have c2 : ¬ (i + 1 ≤ i ∧ i < i + 1 + (v.size_ - i)) := by omega
          rw [if_neg c2, if_pos rfl, if_pos hw, if_neg c1, if_pos rfl]
        · have c2 : k + 1 ≤ i ∧ i < k + 1 + (v.size_ - k) := by omega
          rw [if_pos c2, if_neg c1, if_neg c5]
          congr 1
          omega
    · intro i hi
      have c : ¬ (v.size_ ≠ v.capacity_ ∧ k < i ∧ i ≤ v.size_) := by
        intro h
        exact h.1 hfull
      rw [if_neg c]
      exact hel i hi
  · obtain ⟨r1, hr1, hlen1, hget1⟩ := copy_backward_loop_spec (v.size_ - k) v.items_ v.size_
      (v.size_ + 1) (by omega) (by omega) (by omega)
    have hw : k < r1.block.length := by omega
    obtain ⟨x, hread, hobj, hel⟩ := Arg.read_some_ok value r1
      (by intro i hi; rw [hlen1]; exact hvalue i hi)
    refine ⟨⟨some (r1.block.set k x)⟩, x, ?_, ?_, ?_, hobj, ?_⟩
    · simp only [Insert, begin_, end_, Nat.sub_zero, if_neg hfull, std_copy_backward,
        Nat.zero_add, if_pos hk, hr1, Outcome.ok_bind, hread, ArrayPtr.write_of_lt _ _ _ hw,
        Outcome.pure_eq_ok, hsucc]
    · simp only [if_neg hfull, ArrayPtr.block_mk_some, List.length_set, hlen1]
    · intro i hi
      simp only [ArrayPtr.block_mk_some, List.getElem?_set]
      by_cases c1 : i < k
      · have c2 : ¬ (v.size_ + 1 - (v.size_ - k) ≤ i ∧ i < v.size_ + 1) := by omega
        have c3 : ¬ (k = i) := by omega
        rw [if_neg c3, hget1 i, if_neg c2, if_pos c1]
      · by_cases c5 : i = k
        · subst c5
          rw [if_pos rfl, if_pos hw, if_neg c1, if_pos rfl]
        · have c2 : v.size_ + 1 - (v.size_ - k) ≤ i ∧ i < v.size_ + 1 := by omega
          have c3 : ¬ (k = i) := by omega
          rw [if_neg c3, hget1 i, if_pos c2, if_neg c1, if_neg c5]
          congr 1
          omega
    · intro i hi
      have h1 := hel i hi
      rw [hget1 i] at h1
      by_cases c : k < i ∧ i ≤ v.size_
      · have c2 : v.size_ + 1 - (v.size_ - k) ≤ i ∧ i < v.size_ + 1 := by omega
        have c3 : v.size_ ≠ v.capacity_ ∧ k < i ∧ i ≤ v.size_ := ⟨hfull, c⟩
        have e : i - (v.size_ + 1 - v.size_) = i - 1 := by omega
        rw [if_pos c2, e] at h1
        rw [if_pos c3]
        exact h1
      · have c2 : ¬ (v.size_ + 1 - (v.size_ - k) ≤ i ∧ i < v.size_ + 1) := by omega
        have c3 : ¬ (v.size_ ≠ v.capacity_ ∧ k < i ∧ i ≤ v.size_) := by
          intro h
          exact c h.2
        rw [if_neg c2] at h1
        rw [if_neg c3]
        exact h1

theorem Insert_spec_gen [Element α] (v : SimpleVector α) (k : Nat) (x : α) (hv : v.InContract)
    (hk : k ≤ v.size_) :
    ∃ items : ArrayPtr α,
      v.Insert k (.object x) = .ok (⟨items, v.size_ + 1,
        if v.size_ = v.capacity_ then max 1 (2 * v.capacity_) else v.capacity_⟩, k) ∧
      items.block.length =
        (if v.size_ = v.capacity_ then max 1 (2 * v.capacity_) else v.items_.block.length) ∧
      ∀ i, i < v.size_ + 1 → items.block[i]? =
        if i < k then v.items_.block[i]? else if i = k then some x
          else v.items_.block[i - 1]? := by
  obtain ⟨items, y, hr, hlen, hget, hobj, _⟩ := Insert_spec_arg v k (.object x) hv hk
    (by intro i hi; cases hi)
  have hy : y = x := hobj x rfl
  subst hy
  exact ⟨items, hr, hlen, hget⟩

theorem Insert_spec [Element α] (v : SimpleVector α) (k : Nat) (x : α) (hv : v.Valid)
    (hk : k ≤ v.size_) :
    ∃ items : ArrayPtr α,
      v.Insert k (.object x) = .ok (⟨items, v.size_ + 1,
        if v.size_ = v.capacity_ then max 1 (2 * v.capacity_) else v.capacity_⟩, k) ∧
      items.block.length =
        (if v.size_ = v.capacity_ then max 1 (2 * v.capacity_) else v.items_.block.length) ∧
      ∀ i, i < v.size_ + 1 → items.block[i]? =
        if i < k then v.items_.block[i]? else if i = k then some x else v.items_.block[i - 1]? :=
  Insert_spec_gen v k x (Valid.inContract v hv) hk

theorem Insert_move_eq [Element α] (v : SimpleVector α) (k : Nat) (x : Arg α) :
    v.Insert_move k x = v.Insert k x := rfl

theorem PushBack_move_eq [Element α] (v : SimpleVector α) (x : Arg α) :
    v.PushBack_move x = v.PushBack x := rfl

theorem CopyOnly_Insert_eq [Element α] (v : SimpleVector α) (k : Nat) (x : Arg α) :
    CopyOnly.Insert v k x = v.Insert k x := rfl

theorem CopyOnly_Erase_eq (v : SimpleVector α) (k : Nat) :
    CopyOnly.Erase v k = v.Erase k := rfl

theorem Erase_spec (v : SimpleVector α) (k : Nat) (hs : v.size_ ≤ v.items_.block.length)
    (hlt : v.size_ < SIZE_MOD) (hk : k < v.size_) :
    ∃ items : ArrayPtr α,
      v.Erase k = .ok (⟨items, v.size_ - 1, v.capacity_⟩, k) ∧
      items.block.length = v.items_.block.length ∧
      ∀ i, items.block[i]? =
        if k ≤ i ∧ i < v.size_ - 1 then v.items_.block[i + 1]? else v.items_.block[i]? := by
  obtain ⟨r, hr, hlen, hget⟩ := copy_within_loop_spec (v.size_ - (k + 1)) v.items_ (k + 1) k
    (by omega) (by omega)
  have hk1 : k + 1 ≤ v.size_ := hk
  have hp : (v.size_ + SIZE_MOD - 1) % SIZE_MOD = v.size_ - 1 :=
    pred_size v.size_ (by omega) hlt
  refine ⟨r, ?_, hlen, ?_⟩
  · simp only [Erase, begin_, end_, Nat.zero_add, std_copy_within, if_pos hk1, hr,
      Outcome.ok_bind, Outcome.pure_eq_ok, hp]
  · intro i
    rw [hget i]
    by_cases c1 : k ≤ i ∧ i < v.size_ - 1
    · have c2 : k ≤ i ∧ i < k + (v.size_ - (k + 1)) := by omega
      have e : k + 1 + (i - k) = i + 1 := by omega
      rw [if_pos c1, if_pos c2, e]
    · have c2 : ¬ (k ≤ i ∧ i < k + (v.size_ - (k + 1))) := by omega
      rw [if_neg c1, if_neg c2]


theorem Reserve_spec_gen [Element α] (v : SimpleVector α) (c : Nat) (hv : v.InContract)
    (hc : v.capacity_ < c) :
    ∃ items : ArrayPtr α, v.Reserve c = .ok ⟨items, v.size_, c⟩ ∧
      items.block.length = c ∧ ∀ i, i < v.size_ → items.block[i]? = v.items_.block[i]? := by
  have hs := hv.size_le
  have hb := hv.capacity_le
  obtain ⟨r, hr, hlen, hget⟩ := IncreaseCapacity_spec v c (by omega) (by omega)
  refine ⟨r, ?_, hlen, ?_⟩
  · simp only [Reserve, gt_iff_lt, if_pos hc, hr]
  · intro i hi
    rw [hget i, if_pos hi]

theorem Reserve_spec [Element α] (v : SimpleVector α) (c : Nat) (hv : v.Valid)
    (hc : v.capacity_ < c) :
    ∃ items : ArrayPtr α, v.Reserve c = .ok ⟨items, v.size_, c⟩ ∧
      items.block.length = c ∧ ∀ i, i < v.size_ → items.block[i]? = v.items_.block[i]? :=
  Reserve_spec_gen v c (Valid.inContract v hv) hc

theorem Fill_spec [Element α] (v : SimpleVector α) (first last : Nat)
    (h : last ≤ v.items_.block.length) :
    ∃ items : ArrayPtr α, v.Fill first last = .ok ⟨items, v.size_, v.capacity_⟩ ∧
      items.block.length = v.items_.block.length ∧
      ∀ i, items.block[i]? =
        if first ≤ i ∧ i < last then some Element.value_init else v.items_.block[i]? := by
  by_cases hfl : first < last
  · obtain ⟨r, hr, hlen, hget⟩ := fill_loop_spec (Element.value_init : α) (last - first)
      v.items_ first (by omega)
    refine ⟨r, ?_, hlen, ?_⟩
    · simp only [Fill, if_pos hfl, hr, Outcome.ok_bind, Outcome.pure_eq_ok]
    · intro i
      rw [hget i]
      by_cases c1 : first ≤ i ∧ i < last
      · have c2 : first ≤ i ∧ i < first + (last - first) := by omega
        rw [if_pos c1, if_pos c2]
      · have c2 : ¬ (first ≤ i ∧ i < first + (last - first)) := by omega
        rw [if_neg c1, if_neg c2]
  · refine ⟨v.items_, ?_, rfl, ?_⟩
    · simp only [Fill, if_neg hfl, Outcome.pure_eq_ok]
    · intro i
      have c1 : ¬ (first ≤ i ∧ i < last) := by omega
      rw [if_neg c1]

theorem Resize_grow_spec_gen [Element α] (v : SimpleVector α) (n : Nat) (hv : v.InContract)
    (hn : v.size_ < n) :
    ∃ items : ArrayPtr α,
      v.Resize n = .ok ⟨items, n,
        if v.capacity_ < n then max n (2 * v.capacity_) else v.capacity_⟩ ∧
      items.block.length =
        (if v.capacity_ < n then max n (2 * v.capacity_) else v.items_.block.length) ∧
      (∀ i, i < v.size_ → items.block[i]? = v.items_.block[i]?) ∧
      ∀ i, v.size_ ≤ i → i < n → items.block[i]? = some Element.value_init := by
  have hs := hv.size_le
  have hb := hv.capacity_le
  have h1 : ¬ (n < v.size_) := by omega
  by_cases hcap : v.capacity_ < n
  · obtain ⟨r, hr, hlen, hget⟩ := IncreaseCapacity_spec v (max n (2 * v.capacity_))
      (by omega) (by omega)
    obtain ⟨r2, hr2, hlen2, hget2⟩ := Fill_spec (⟨r, v.size_, max n (2 * v.capacity_)⟩ :
      SimpleVector α) (0 + v.size_) (0 + n) (by simp only [hlen]; omega)
    refine ⟨r2, ?_, ?_, ?_, ?_⟩
    · simp only [Resize, if_neg h1, gt_iff_lt, if_pos hn, if_pos hcap,
        inContract_double_capacity v hv, hr, Outcome.ok_bind, begin_, hr2, Outcome.pure_eq_ok]
    · rw [hlen2, if_pos hcap]; exact hlen
    · intro i hi
      have c1 : ¬ (0 + v.size_ ≤ i ∧ i < 0 + n) := by omega
      rw [hget2 i, if_neg c1]
      show r.block[i]? = _
      rw [hget i, if_pos hi]
    · intro i h1 h2
      have c1 : 0 + v.size_ ≤ i ∧ i < 0 + n := by omega
      rw [hget2 i, if_pos c1]
  · obtain ⟨r2, hr2, hlen2, hget2⟩ := Fill_spec v (0 + v.size_) (0 + n) (by omega)
    refine ⟨r2, ?_, ?_, ?_, ?_⟩
    · simp only [Resize, if_neg h1, gt_iff_lt, if_pos hn, if_neg hcap, Outcome.pure_eq_ok,
        Outcome.ok_bind, begin_, hr2]
    · rw [hlen2, if_neg hcap]
    · intro i hi
      have c1 : ¬ (0 + v.size_ ≤ i ∧ i < 0 + n) := by omega
      rw [hget2 i, if_neg c1]
    · intro i h1 h2
      have c1 : 0 + v.size_ ≤ i ∧ i < 0 + n := by omega
      rw [hget2 i, if_pos c1]

theorem Resize_grow_spec [Element α] (v : SimpleVector α) (n : Nat) (hv : v.Valid)
    (hn : v.size_ < n) :
    ∃ items : ArrayPtr α,
      v.Resize n = .ok ⟨items, n,
        if v.capacity_ < n then max n (2 * v.capacity_) else v.capacity_⟩ ∧
      items.block.length =
        (if v.capacity_ < n then max n (2 * v.capacity_) else v.items_.block.length) ∧
      (∀ i, i < v.size_ → items.block[i]? = v.items_.block[i]?) ∧
      ∀ i, v.size_ ≤ i → i < n → items.block[i]? = some Element.value_init :=
  Resize_grow_spec_gen v n (Valid.inContract v hv) hn

theorem ctor_copy_spec [Element α] (a : SimpleVector α) (h : a.size_ ≤ a.items_.block.length) :
    ∃ items : ArrayPtr α, ctor_copy a = .ok (a, ⟨items, a.size_, a.size_⟩) ∧
      items.block.length = a.size_ ∧
      ∀ i, i < a.size_ → items.block[i]? = a.items_.block[i]? := by
  obtain ⟨r, hr, hlen, hget⟩ := copy_loop_spec a.items_ a.size_ 0 (ArrayPtr.alloc a.size_) 0
    (by omega) (by rw [ArrayPtr.block_alloc]; simp)
  rw [ArrayPtr.block_alloc, List.length_replicate] at hlen
  refine ⟨r, ?_, hlen, ?_⟩
  · simp only [ctor_copy, GetSize, std_copy, begin_, end_, Nat.zero_add, Nat.zero_le, if_true,
      Nat.sub_zero, hr, Outcome.ok_bind, Outcome.pure_eq_ok]
  · intro i hi
    have c : 0 ≤ i ∧ i < 0 + a.size_ := by omega
    rw [hget i, if_pos c]
    simp

theorem eq_spec [BEq α] (a b : SimpleVector α) (ha : a.size_ ≤ a.items_.block.length)
    (hb : b.size_ ≤ b.items_.block.length) :
    ∃ r, SimpleVector.eq a b = .ok r ∧
      (r = true ↔ a.size_ = b.size_ ∧ ∀ i, i < a.size_ → ∀ x y,
        a.items_.block[i]? = some x → b.items_.block[i]? = some y → (x == y) = true) := by
  by_cases hsz : a.size_ = b.size_
  · obtain ⟨r, hr, hiff⟩ := equal_loop_spec a.items_ b.items_ a.size_ 0 0 (by omega) (by omega)
    refine ⟨r, ?_, ?_⟩
    · simp only [SimpleVector.eq, std_equal, begin_, end_, Nat.zero_add, Nat.zero_le, and_self,
        if_true, Nat.sub_zero, ne_eq, hsz, not_true_eq_false, if_false]
      rw [← hsz]; exact hr
    · rw [hiff]
      simp only [Nat.zero_add, hsz, true_and]
  · refine ⟨false, ?_, ?_⟩
    · simp only [SimpleVector.eq, std_equal, begin_, end_, Nat.zero_add, Nat.zero_le, and_self,
        if_true, Nat.sub_zero, ne_eq, hsz, not_false_eq_true]
    · simp [hsz]

theorem eq_of_toList_eq [BEq α] [LawfulBEq α] (a b : SimpleVector α)
    (ha : a.size_ ≤ a.items_.block.length) (hb : b.size_ ≤ b.items_.block.length)
    (h : toList a = toList b) : SimpleVector.eq a b = .ok true := by
  obtain ⟨r, hr, hiff⟩ := eq_spec a b ha hb
  have hsz : a.size_ = b.size_ := by
    rw [← length_toList a ha, ← length_toList b hb, h]
  have : r = true := by
    rw [hiff]
    refine ⟨hsz, ?_⟩
    intro i hi x y hx hy
    have h1 := toList_getElem? a i
    have h2 := toList_getElem? b i
    rw [if_pos hi, hx] at h1
    rw [if_pos (by omega), hy] at h2
    rw [h, h2] at h1
    cases h1
    simp
  rw [hr, this]

end SimpleVector

section ListFacts
variable {α : Type}

theorem getElem?_insert_at (l : List α) (k : Nat) (x : α) (hk : k ≤ l.length) (i : Nat) :
    (l.take k ++ [x] ++ l.drop k)[i]? =
      if i < k then l[i]? else if i = k then some x else l[i - 1]? := by
  have hlen : (l.take k).length = k := by simp [hk]
  by_cases c1 : i < k
  · rw [if_pos c1, List.append_assoc, List.getElem?_append_left (by omega),
      List.getElem?_take, if_pos c1]
  · rw [if_neg c1, List.append_assoc, List.getElem?_append_right (by omega), hlen]
    by_cases c2 : i = k
    · subst c2
      simp
    · rw [if_neg c2]
      have : i - k = (i - k - 1) + 1 := by omega
      rw [this, List.singleton_append, List.getElem?_cons_succ, List.getElem?_drop]
      congr 1
      omega

theorem getElem?_erase_at (l : List α) (k : Nat) (hk : k ≤ l.length) (i : Nat) :
    (l.take k ++ l.drop (k + 1))[i]? = if i < k then l[i]? else l[i + 1]? := by
  have hlen : (l.take k).length = k := by simp [hk]
  by_cases c1 : i < k
  · rw [if_pos c1, List.getElem?_append_left (by omega), List.getElem?_take, if_pos c1]
  · rw [if_neg c1, List.getElem?_append_right (by omega), hlen, List.getElem?_drop]
    congr 1
    omega

end ListFacts

/-! ## The contracts of the operations -/

namespace SimpleVector
variable {α : Type}

/-- C1: `At(i)` throws `std::out_of_range` exactly when `i >= size`; when
`i < size` it yields what `operator[](i)` yields (on a valid vector: the element
`i` of the logical sequence); the call assigns no member of the vector. -/
theorem At_checked_access (v : SimpleVector α) (i : Nat) :
    ((v.At i).2 = .out_of_range ↔ v.size_ ≤ i) ∧
    (i < v.size_ → (v.At i).2 = v.subscript i) ∧
    (v.At i).1 = v ∧
    (v.Valid → i < v.size_ →
      ∃ x, (v.At i).2 = .ok x ∧ v.subscript i = .ok x ∧ (toList v)[i]? = some x) := by
  refine ⟨?_, ?_, ?_, ?_⟩
  · constructor
    · intro h
      by_contra hlt
      simp only [At, if_neg hlt, ArrayPtr.read] at h
      cases hb : v.items_.block[i]? with
      | none => rw [hb] at h; cases h
      | some x => rw [hb] at h; cases h
    · intro h
      simp only [At, if_pos h]
  · intro h
    have : ¬ (v.size_ ≤ i) := by omega
    simp only [At, if_neg this, subscript]
  · unfold At
    split <;> rfl
  · intro hv h
    have hle : ¬ (v.size_ ≤ i) := by omega
    have hb : i < v.items_.block.length := by
      have := hv.size_le
      have := hv.capacity_le
      omega
    refine ⟨v.items_.block.get ⟨i, hb⟩, ?_, ?_, ?_⟩
    · simp only [At, if_neg hle, ArrayPtr.read_of_lt _ _ hb]
    · simp only [subscript, ArrayPtr.read_of_lt _ _ hb]
    · rw [toList_getElem?, if_pos h, List.getElem?_eq_getElem hb]
      rfl

/-- Instance of C1 on `{1, 2, 3}` (capacity 4): `At(1)` yields 2 and `At(3)`
throws. -/
theorem At_checked_access_witness :
    (sample_spare.At 1).2 = .ok 2 ∧ (sample_spare.At 3).2 = .out_of_range ∧
    ((sample_spare.At 3).2 = .out_of_range ↔ sample_spare.size_ ≤ 3) ∧
    (1 < sample_spare.size_ → (sample_spare.At 1).2 = sample_spare.subscript 1) ∧
    (sample_spare.At 1).1 = sample_spare :=
  ⟨rfl, rfl, (At_checked_access sample_spare 3).1, (At_checked_access sample_spare 1).2.1,
    (At_checked_access sample_spare 1).2.2.1⟩

/-- What `Insert` does for a parameter that reads as some value `x`: on a valid
vector with logical sequence `s` of size `n` and for `k <= n`,
`Insert(begin() + k, value)` (both overloads, both variants) returns the
iterator `begin() + k` and leaves `s[0..k) ++ [x] ++ s[k..n)` of size `n + 1`;
when the vector was full the new block and the capacity are
`max(1, 2 * capacity)`, otherwise block and capacity keep their length.  For an
object that is not an element of the vector `x` is its value.  For a reference
to the element at `i < n` the value stored is `s[i]` on the reallocating path
and for `i <= k`, but `s[i - 1]` on the in-place path when `k < i`, because the
reference is read after the suffix was shifted. -/
theorem Insert_places_read_value [Element α] (v : SimpleVector α) (k : Nat) (value : Arg α)
    (hv : v.Valid) (hk : k ≤ v.size_) (hvalue : ∀ i, value = .element i → i < v.size_) :
    ∃ (w : SimpleVector α) (x : α),
      v.Insert k value = .ok (w, k) ∧
      v.Insert_move k value = .ok (w, k) ∧
      CopyOnly.Insert v k value = .ok (w, k) ∧
      toList w = (toList v).take k ++ [x] ++ (toList v).drop k ∧
      w.size_ = v.size_ + 1 ∧
      (toList w).length = v.size_ + 1 ∧
      w.subscript k = .ok x ∧
      (v.size_ = v.capacity_ →
        w.capacity_ = max 1 (2 * v.capacity_) ∧ w.items_.block.length = max 1 (2 * v.capacity_)) ∧
      (v.size_ ≠ v.capacity_ →
        w.capacity_ = v.capacity_ ∧ w.items_.block.length = v.items_.block.length) ∧
      (∀ y, value = .object y → x = y) ∧
      (∀ i, value = .element i →
        (toList v)[if v.size_ ≠ v.capacity_ ∧ k < i then i - 1 else i]? = some x) := by
  have hs := hv.size_le
  have hc := hv.capacity_le
  obtain ⟨items, x, hr, hlen, hget, hobj, hel⟩ := Insert_spec_arg v k value
    (Valid.inContract v hv) hk (by intro i hi; have := hvalue i hi; omega)
  have hsl : v.size_ + 1 ≤ items.block.length := by
    rw [hlen]; split <;> omega
  refine ⟨_, x, hr, ?_, ?_, ?_, rfl, ?_, ?_, ?_, ?_, hobj, ?_⟩
  · rw [Insert_move_eq]; exact hr
  · rw [CopyOnly_Insert_eq]; exact hr
  · apply List.ext_getElem?
    intro i
    rw [getElem?_insert_at _ _ _ (by rw [length_toList v (by omega)]; exact hk), toList_getElem?]
    simp only [toList_getElem? v]
    by_cases c0 : i < v.size_ + 1
    · rw [if_pos c0, hget i c0]
      by_cases c1 : i < k
      · rw [if_pos c1, if_pos c1, if_pos (by omega)]
      · rw [if_neg c1, if_neg c1]
        by_cases c2 : i = k
        · rw [if_pos c2, if_pos c2]
        · rw [if_neg c2, if_neg c2, if_pos (by omega)]
    · have c1 : ¬ (i < k) := by omega
      have c2 : ¬ (i = k) := by omega
      have c3 : ¬ (i - 1 < v.size_) := by omega
      rw [if_neg c0, if_neg c1, if_neg c2, if_neg c3]
  · rw [length_toList _ hsl]
  · have := hget k (by omega)
    rw [if_neg (by omega), if_pos rfl] at this
    simp only [subscript, ArrayPtr.read, this]
  · intro hfull
    simp only [if_pos hfull] at hlen ⊢
    exact ⟨trivial, hlen⟩
  · intro hnf
    simp only [if_neg hnf] at hlen ⊢
    exact ⟨trivial, hlen⟩
  · intro i hi
    have hi1 := hvalue i hi
    have h1 := hel i hi
    rw [toList_getElem?]
    by_cases c : v.size_ ≠ v.capacity_ ∧ k < i
    · have c2 : v.size_ ≠ v.capacity_ ∧ k < i ∧ i ≤ v.size_ := ⟨c.1, c.2, by omega⟩
      rw [if_pos c2] at h1
      rw [if_pos c, if_pos (by omega)]
      exact h1
    · have c2 : ¬ (v.size_ ≠ v.capacity_ ∧ k < i ∧ i ≤ v.size_) := by
        intro h
        exact c ⟨h.1, h.2.1⟩
      rw [if_neg c2] at h1
      rw [if_neg c, if_pos hi1]
      exact h1

/-- C2, evaluated: on `{1, 2, 3}` with capacity 4, where `v[2]` is 3, the call
`Insert(begin(), v[2])` (both overloads, both variants) takes the in-place path,
shifts the suffix and only then reads the reference, whose slot by then holds
2: it leaves `{2, 1, 2, 3}`, where the claim gives `{3, 1, 2, 3}`, which is what
inserting the value 3 as an object of its own leaves; on the full vector
`{1, 9, 2, 3}` the reallocating path reads the reference before the block
changes and `Insert(begin(), v[2])` leaves `{2, 1, 9, 2, 3}`, as claimed.  The first vector
is what `PushBack` of 1, 2, 3 makes of the empty vector. -/
theorem Insert_reads_element_after_shift :
    PushBack_all (ctor_default : SimpleVector Int) [1, 2, 3] = .ok sample_spare ∧
    toList sample_spare = [1, 2, 3] ∧ sample_spare.capacity_ = 4 ∧
    sample_spare.subscript 2 = .ok 3 ∧
    sample_spare.Insert 0 (.element 2) = .ok (⟨⟨some [2, 1, 2, 3]⟩, 4, 4⟩, 0) ∧
    sample_spare.Insert_move 0 (.element 2) = .ok (⟨⟨some [2, 1, 2, 3]⟩, 4, 4⟩, 0) ∧
    CopyOnly.Insert sample_spare 0 (.element 2) = .ok (⟨⟨some [2, 1, 2, 3]⟩, 4, 4⟩, 0) ∧
    toList (⟨⟨some [2, 1, 2, 3]⟩, 4, 4⟩ : SimpleVector Int) ≠
      (toList sample_spare).take 0 ++ [3] ++ (toList sample_spare).drop 0 ∧
    sample_spare.Insert 0 (.object 3) = .ok (⟨⟨some [3, 1, 2, 3]⟩, 4, 4⟩, 0) ∧
    (toList sample_full = [1, 9, 2, 3] ∧ sample_full.subscript 2 = .ok 2 ∧
      sample_full.Insert 0 (.element 2)
        = .ok (⟨⟨some [2, 1, 9, 2, 3, -1, -1, -1]⟩, 5, 8⟩, 0)) := by
  refine ⟨rfl, rfl, rfl, rfl, rfl, rfl, rfl, by decide, rfl, rfl, rfl, rfl⟩

/-- C3: on a valid vector with logical sequence `s` of size `n` and for
`k < n`, `Erase(begin() + k)` returns the iterator `begin() + k` and leaves the
logical sequence `s[0..k) ++ s[k+1..n)` of size `n - 1`; capacity and block are
not replaced; the copy-only variant does the same. -/
theorem Erase_removes_position (v : SimpleVector α) (k : Nat)
    (hv : v.Valid) (hk : k < v.size_) :
    ∃ w : SimpleVector α,
      v.Erase k = .ok (w, k) ∧
      CopyOnly.Erase v k = .ok (w, k) ∧
      toList w = (toList v).take k ++ (toList v).drop (k + 1) ∧
      w.size_ = v.size_ - 1 ∧
      (toList w).length = v.size_ - 1 ∧
      w.capacity_ = v.capacity_ ∧
      w.items_.block.length = v.items_.block.length := by
  have hs := hv.size_le
  have hc := hv.capacity_le
  have hlt := Valid.capacity_lt v hv
  obtain ⟨items, hr, hlen, hget⟩ := Erase_spec v k (by omega) (by unfold SIZE_MOD; omega) hk
  refine ⟨_, hr, ?_, ?_, rfl, ?_, rfl, hlen⟩
  · rw [CopyOnly_Erase_eq]; exact hr
  · apply List.ext_getElem?
    intro i
    rw [getElem?_erase_at _ _ (by rw [length_toList v (by omega)]; omega), toList_getElem?]
    simp only [toList_getElem? v]
    rw [hget i]
    by_cases c0 : i < v.size_ - 1
    · rw [if_pos c0]
      by_cases c1 : i < k
      · rw [if_pos c1, if_neg (by omega), if_pos (by omega)]
      · rw [if_neg c1, if_pos (by omega), if_pos (by omega)]
    · rw [if_neg c0]
      have c1 : ¬ (i < k) := by omega
      rw [if_neg c1, if_neg (by omega)]
  · rw [length_toList _ (by show v.size_ - 1 ≤ items.block.length; omega)]

/-- Instance of C3 on `{1, 9, 2, 3}`, erasing position 1. -/
theorem Erase_removes_position_witness :
    sample_full.Valid ∧ 1 < sample_full.size_ ∧
    sample_full.Erase 1 = .ok (⟨⟨some [1, 2, 3, 3]⟩, 3, 4⟩, 1) ∧
    ∃ w : SimpleVector Int,
      sample_full.Erase 1 = .ok (w, 1) ∧
      CopyOnly.Erase sample_full 1 = .ok (w, 1) ∧
      toList w = (toList sample_full).take 1 ++ (toList sample_full).drop (1 + 1) ∧
      w.size_ = sample_full.size_ - 1 ∧
      (toList w).length = sample_full.size_ - 1 ∧
      w.capacity_ = sample_full.capacity_ ∧
      w.items_.block.length = sample_full.items_.block.length :=
  ⟨⟨by decide, by decide, by decide⟩, by decide, rfl,
    Erase_removes_position sample_full 1 ⟨by decide, by decide, by decide⟩ (by decide)⟩

/-- What `PushBack` does for a parameter that can be read: on a valid vector
with logical sequence `s` of size `n`, `PushBack(item)` (either overload) with
an object that is not an element of the vector, or with a reference to a live
element when the vector is not full, leaves `s ++ [x]` of size `n + 1`, `x` being
the value of the object or of the element, the elements at `[0, n)` being those
of before; the capacity is `max(1, 2 * capacity)` when `n == capacity` held
before the call and is unchanged otherwise. -/
theorem PushBack_appends_read_value [Element α] (v : SimpleVector α) (item : Arg α)
    (hv : v.Valid)
    (hitem : ∀ i, item = .element i → v.size_ ≠ v.capacity_ ∧ i < v.size_) :
    ∃ (w : SimpleVector α) (x : α),
      v.PushBack item = .ok w ∧
      v.PushBack_move item = .ok w ∧
      toList w = toList v ++ [x] ∧
      w.size_ = v.size_ + 1 ∧
      (∀ i, i < v.size_ → w.subscript i = v.subscript i) ∧
      (v.size_ = v.capacity_ → w.capacity_ = max 1 (2 * v.capacity_)) ∧
      (v.size_ ≠ v.capacity_ → w.capacity_ = v.capacity_) ∧
      (∀ y, item = .object y → x = y) ∧
      (∀ i, item = .element i → (toList v)[i]? = some x) := by
  have hs := hv.size_le
  have hc := hv.capacity_le
  have hread : ∃ x, item.read (if v.size_ = v.capacity_ then none else some v.items_) = .ok x ∧
      (∀ y, item = .object y → x = y) ∧ (∀ i, item = .element i → (toList v)[i]? = some x) := by
    cases item with
    | object y =>
      refine ⟨y, rfl, ?_, ?_⟩
      · intro z hz
        cases hz
        rfl
      · intro i hi
        cases hi
    | element i =>
      obtain ⟨hnf, hi⟩ := hitem i rfl
      have hb : i < v.items_.block.length := by omega
      refine ⟨v.items_.block.get ⟨i, hb⟩, ?_, ?_, ?_⟩
      · rw [if_neg hnf]
        exact ArrayPtr.read_of_lt _ _ hb
      · intro z hz
        cases hz
      · intro j hj
        cases hj
        rw [toList_getElem?, if_pos hi]
        exact List.getElem?_eq_getElem hb
  obtain ⟨x, hx, hobj, hel⟩ := hread
  obtain ⟨items, hr, hlen, hat, hget⟩ := PushBack_spec_arg v item x (Valid.inContract v hv) hx
  refine ⟨_, x, hr, ?_, ?_, rfl, ?_, ?_, ?_, hobj, hel⟩
  · rw [PushBack_move_eq]; exact hr
  · exact toList_push v items x _ (by omega) hat hget
  · intro i hi
    simp only [subscript, ArrayPtr.read, hget i hi]
  · intro hfull
    simp only [if_pos hfull]
  · intro hnf
    simp only [if_neg hnf]

/-- C5, evaluated: on the full vector `{1, 9, 2, 3}`, where `v[0]` is 1, the
call `PushBack(v[0])` (either overload) has `IncreaseCapacity` install the new
block and release the old one before `items_[size_] = item` reads `item`, which
refers into the released block: the read is undefined behaviour, where the
claim gives `{1, 9, 2, 3, 1}`.  That sequence is what `PushBack` of the value 1
as an object of its own leaves, what `Insert(end(), v[0])` leaves on the same
vector (it reads the reference before the old block is released), and the same
call succeeds when the vector has spare capacity.  The full vector is the one
the initializer-list constructor makes of `{1, 9, 2, 3}`. -/
theorem PushBack_reads_element_after_release :
    ctor_init_list [1, 9, 2, 3] = .ok sample_full ∧
    toList sample_full = [1, 9, 2, 3] ∧ sample_full.size_ = sample_full.capacity_ ∧
    sample_full.subscript 0 = .ok 1 ∧
    sample_full.PushBack (.element 0) = .undefined ∧
    sample_full.PushBack_move (.element 0) = .undefined ∧
    sample_full.PushBack (.object 1) = .ok ⟨⟨some [1, 9, 2, 3, 1, -1, -1, -1]⟩, 5, 8⟩ ∧
    sample_full.Insert 4 (.element 0)
      = .ok (⟨⟨some [1, 9, 2, 3, 1, -1, -1, -1]⟩, 5, 8⟩, 4) ∧
    sample_spare.PushBack (.element 0) = .ok ⟨⟨some [1, 2, 3, 1]⟩, 4, 4⟩ := by
  refine ⟨rfl, rfl, rfl, rfl, rfl, rfl, rfl, rfl, rfl⟩

/-- C7: on a valid vector, `Reserve(c)` with `c <= capacity` leaves the whole
vector as it was; with `c > capacity` the capacity (and the block length)
becomes exactly `c`, the size, the elements at `[0, size)` and their order being
as before. -/
theorem Reserve_contract [Element α] (v : SimpleVector α) (c : Nat) (hv : v.Valid) :
    (c ≤ v.capacity_ → v.Reserve c = .ok v) ∧
    (v.capacity_ < c →
      ∃ w : SimpleVector α, v.Reserve c = .ok w ∧ w.capacity_ = c ∧
        w.items_.block.length = c ∧ w.size_ = v.size_ ∧ toList w = toList v ∧
        ∀ i, i < v.size_ → w.subscript i = v.subscript i) := by
  constructor
  · intro h
    have : ¬ (c > v.capacity_) := by omega
    simp only [Reserve, if_neg this, Outcome.pure_eq_ok]
  · intro h
    obtain ⟨items, hr, hlen, hget⟩ := Reserve_spec v c hv h
    refine ⟨_, hr, rfl, hlen, rfl, ?_, ?_⟩
    · apply List.ext_getElem?
      intro i
      rw [toList_getElem?, toList_getElem?]
      show (if i < v.size_ then items.block[i]? else none) = _
      by_cases c0 : i < v.size_
      · rw [if_pos c0, if_pos c0, hget i c0]
      · rw [if_neg c0, if_neg c0]
    · intro i hi
      simp only [subscript, ArrayPtr.read, hget i hi]

/-- Instance of C7 on `{1, 2, 3}` with capacity 4, reserving 10. -/
theorem Reserve_contract_witness :
    sample_spare.Valid ∧
    sample_spare.Reserve 10
      = .ok ⟨⟨some [1, 2, 3, -1, -1, -1, -1, -1, -1, -1]⟩, 3, 10⟩ ∧
    (10 ≤ sample_spare.capacity_ → sample_spare.Reserve 10 = .ok sample_spare) ∧
    (sample_spare.capacity_ < 10 →
      ∃ w : SimpleVector Int, sample_spare.Reserve 10 = .ok w ∧ w.capacity_ = 10 ∧
        w.items_.block.length = 10 ∧ w.size_ = sample_spare.size_ ∧
        toList w = toList sample_spare ∧
        ∀ i, i < sample_spare.size_ → w.subscript i = sample_spare.subscript i) :=
  ⟨⟨by decide, by decide, by decide⟩, rfl,
    Reserve_contract sample_spare 10 ⟨by decide, by decide, by decide⟩⟩

/-- C8: on a valid vector of size `s`, `Resize(n)` sets the size to `n`; if
`n < s` the elements at `[0, n)` are as before and the capacity is unchanged; if
`n > s` the elements at `[0, s)` are as before and every element at `[s, n)` is
`Type{}`, whatever those slots held; the capacity is unchanged when
`n <= capacity` and is `max(n, 2 * capacity)` when `n > capacity`. -/
theorem Resize_contract [Element α] (v : SimpleVector α) (n : Nat) (hv : v.Valid) :
    ∃ w : SimpleVector α,
      v.Resize n = .ok w ∧
      w.size_ = n ∧
      (n < v.size_ → toList w = (toList v).take n ∧ w.capacity_ = v.capacity_) ∧
      (v.size_ < n →
        toList w = toList v ++ List.replicate (n - v.size_) Element.value_init ∧
        (∀ i, i < v.size_ → w.subscript i = v.subscript i) ∧
        (∀ i, v.size_ ≤ i → i < n → w.subscript i = .ok Element.value_init)) ∧
      (n ≤ v.capacity_ → w.capacity_ = v.capacity_) ∧
      (v.capacity_ < n → w.capacity_ = max n (2 * v.capacity_)) := by
  have hs := hv.size_le
  have hc := hv.capacity_le
  rcases Nat.lt_trichotomy n v.size_ with hlt | heq | hgt
  · refine ⟨{ v with size_ := n }, ?_, rfl, ?_, ?_, ?_, ?_⟩
    · simp only [Resize, if_pos hlt, Outcome.pure_eq_ok]
    · intro _
      refine ⟨?_, rfl⟩
      apply List.ext_getElem?
      intro i
      rw [List.getElem?_take, toList_getElem?, toList_getElem?]
      show (if i < n then v.items_.block[i]? else none) = _
      by_cases c0 : i < n
      · rw [if_pos c0, if_pos c0, if_pos (by omega)]
      · rw [if_neg c0, if_neg c0]
    · intro h; omega
    · intro _; rfl
    · intro h; omega
  · refine ⟨v, ?_, heq.symm, ?_, ?_, ?_, ?_⟩
    · have h1 : ¬ (n < v.size_) := by omega
      have h2 : ¬ (n > v.size_) := by omega
      simp only [Resize, if_neg h1, if_neg h2, Outcome.pure_eq_ok]
    · intro h; omega
    · intro h; omega
    · intro _; rfl
    · intro h; omega
  · obtain ⟨items, hr, hlen, hget, hfill⟩ := Resize_grow_spec v n hv hgt
    refine ⟨_, hr, rfl, ?_, ?_, ?_, ?_⟩
    · intro h; omega
    · intro _
      refine ⟨?_, ?_, ?_⟩
      · apply List.ext_getElem?
        intro i
        rw [toList_getElem?, List.getElem?_append, length_toList v (by omega), toList_getElem?,
          List.getElem?_replicate]
        show (if i < n then items.block[i]? else none) = _
        by_cases c0 : i < v.size_
        · rw [if_pos (by omega), if_pos c0, if_pos c0, hget i c0]
        · rw [if_neg c0]
          by_cases c1 : i < n
          · rw [if_pos c1, if_pos (by omega), hfill i (by omega) c1]
          · rw [if_neg c1, if_neg (by omega)]
      · intro i hi
        simp only [subscript, ArrayPtr.read, hget i hi]
      · intro i h1 h2
        simp only [subscript, ArrayPtr.read, hfill i h1 h2]
    · intro h
      have : ¬ (v.capacity_ < n) := by omega
      simp only [if_neg this]
    · intro h
      simp only [if_pos h]

/-- Instance of C8 on `{5, 6}` with stale 7 and 8 behind the end, resized to 4:
the stale values are replaced by `int{}`. -/
theorem Resize_contract_witness :
    sample_stale.Valid ∧
    sample_stale.Resize 4 = .ok ⟨⟨some [5, 6, 0, 0]⟩, 4, 4⟩ ∧
    ∃ w : SimpleVector Int,
      sample_stale.Resize 4 = .ok w ∧
      w.size_ = 4 ∧
      (4 < sample_stale.size_ →
        toList w = (toList sample_stale).take 4 ∧ w.capacity_ = sample_stale.capacity_) ∧
      (sample_stale.size_ < 4 →
        toList w = toList sample_stale ++ List.replicate (4 - sample_stale.size_)
          Element.value_init ∧
        (∀ i, i < sample_stale.size_ → w.subscript i = sample_stale.subscript i) ∧
        (∀ i, sample_stale.size_ ≤ i → i < 4 → w.subscript i = .ok Element.value_init)) ∧
      (4 ≤ sample_stale.capacity_ → w.capacity_ = sample_stale.capacity_) ∧
      (sample_stale.capacity_ < 4 → w.capacity_ = max 4 (2 * sample_stale.capacity_)) :=
  ⟨⟨by decide, by decide, by decide⟩, rfl,
    Resize_contract sample_stale 4 ⟨by decide, by decide, by decide⟩⟩

theorem copy_then_spec [Element α] (a b b1 : SimpleVector α)
    (stmt : SimpleVector α → Outcome (SimpleVector α))
    (hcopy : ctor_copy a = .ok (a, b)) (hstmt : stmt b = .ok b1) :
    copy_then a stmt = .ok (a, b1) := by
  simp only [copy_then, hcopy, Outcome.ok_bind, hstmt, Outcome.pure_eq_ok]

/-- C9: for a valid vector `a`, copy construction leaves `a` as it was and
makes a vector `b` with `a == b`, whose size, capacity and block length all
equal `a`'s size, holding `a`'s elements in order; and running `PushBack`, an
element assignment, `Erase` or `Clear` on `b` after the copy succeeds and
leaves `a` with the members it had. -/
theorem ctor_copy_contract [Element α] [BEq α] [LawfulBEq α] (a : SimpleVector α)
    (ha : a.Valid) :
    ∃ b : SimpleVector α,
      ctor_copy a = .ok (a, b) ∧
      SimpleVector.eq a b = .ok true ∧
      b.size_ = a.size_ ∧
      b.capacity_ = a.size_ ∧
      b.items_.block.length = a.size_ ∧
      toList b = toList a ∧
      (∀ item, ∃ b1, copy_then a (fun b => b.PushBack (.object item)) = .ok (a, b1) ∧
        b1.size_ = a.size_ + 1) ∧
      (∀ i x, i < a.size_ → ∃ b1, copy_then a (fun b => b.subscript_assign i x) = .ok (a, b1) ∧
        b1.subscript i = .ok x) ∧
      (∀ k, k < a.size_ →
        ∃ b1, copy_then a (fun b => do let r ← b.Erase k; pure r.1) = .ok (a, b1) ∧
          b1.size_ = a.size_ - 1) ∧
      (∃ b1, copy_then a (fun b => pure b.Clear) = .ok (a, b1) ∧ b1.size_ = 0) := by
  have hs := ha.size_le
  have hc := ha.capacity_le
  have hb := ha.block_le
  have hlt := Valid.capacity_lt a ha
  obtain ⟨items, hr, hlen, hget⟩ := ctor_copy_spec a (by omega)
  have hseq : toList (⟨items, a.size_, a.size_⟩ : SimpleVector α) = toList a := by
    apply List.ext_getElem?
    intro i
    rw [toList_getElem?, toList_getElem?]
    show (if i < a.size_ then items.block[i]? else none) = _
    by_cases c0 : i < a.size_
    · rw [if_pos c0, if_pos c0, hget i c0]
    · rw [if_neg c0, if_neg c0]
  have hvb : (⟨items, a.size_, a.size_⟩ : SimpleVector α).Valid :=
    ⟨Nat.le_refl _, by show a.size_ ≤ items.block.length; omega,
      by show items.block.length ≤ PTRDIFF_MAX; omega⟩
  refine ⟨_, hr, ?_, rfl, rfl, hlen, hseq, ?_, ?_, ?_, ?_⟩
  · exact eq_of_toList_eq _ _ (by omega) (by show a.size_ ≤ items.block.length; omega) hseq.symm
  · intro item
    obtain ⟨items1, hp, _, _, _⟩ := PushBack_spec _ item hvb
    exact ⟨_, copy_then_spec a _ _ _ hr hp, rfl⟩
  · intro i x hi
    have hw : i < items.block.length := by omega
    refine ⟨⟨⟨some (items.block.set i x)⟩, a.size_, a.size_⟩, ?_, ?_⟩
    · apply copy_then_spec a _ _ _ hr
      simp only [subscript_assign, ArrayPtr.write_of_lt _ _ _ hw, Outcome.ok_bind,
        Outcome.pure_eq_ok]
    · simp [subscript, ArrayPtr.read, List.getElem?_set, hw]
  · intro k hk
    obtain ⟨items1, he, _, _⟩ := Erase_spec (⟨items, a.size_, a.size_⟩ : SimpleVector α) k
      (by show a.size_ ≤ items.block.length; omega)
      (by show a.size_ < SIZE_MOD; unfold SIZE_MOD; omega) hk
    refine ⟨⟨items1, a.size_ - 1, a.size_⟩, copy_then_spec a _ _ _ hr ?_, rfl⟩
    simp only [he, Outcome.ok_bind, Outcome.pure_eq_ok]
  · exact ⟨_, copy_then_spec a _ _ _ hr rfl, rfl⟩

/-- Instance of C9 on `{1, 2, 3}` with capacity 4: the copy has capacity 3. -/
theorem ctor_copy_contract_witness :
    sample_spare.Valid ∧
    ctor_copy sample_spare = .ok (sample_spare, ⟨⟨some [1, 2, 3]⟩, 3, 3⟩) ∧
    ∃ b : SimpleVector Int,
      ctor_copy sample_spare = .ok (sample_spare, b) ∧
      SimpleVector.eq sample_spare b = .ok true ∧
      b.size_ = sample_spare.size_ ∧
      b.capacity_ = sample_spare.size_ ∧
      b.items_.block.length = sample_spare.size_ ∧
      toList b = toList sample_spare ∧
      (∀ item, ∃ b1, copy_then sample_spare (fun b => b.PushBack (.object item)) = .ok (sample_spare, b1) ∧
        b1.size_ = sample_spare.size_ + 1) ∧
      (∀ i x, i < sample_spare.size_ →
        ∃ b1, copy_then sample_spare (fun b => b.subscript_assign i x) = .ok (sample_spare, b1) ∧
          b1.subscript i = .ok x) ∧
      (∀ k, k < sample_spare.size_ →
        ∃ b1, copy_then sample_spare (fun b => do let r ← b.Erase k; pure r.1)
            = .ok (sample_spare, b1) ∧
          b1.size_ = sample_spare.size_ - 1) ∧
      (∃ b1, copy_then sample_spare (fun b => pure b.Clear) = .ok (sample_spare, b1) ∧
        b1.size_ = 0) :=
  ⟨⟨by decide, by decide, by decide⟩, rfl,
    ctor_copy_contract sample_spare ⟨by decide, by decide, by decide⟩⟩

/-- C10: move construction from `a` makes a vector with `a`'s block, size and
capacity (hence its logical sequence) and leaves `a` with size 0 and capacity
0; a `PushBack` on the moved-from `a` then succeeds and yields a one-element
vector. -/
theorem ctor_move_contract [Element α] (a : SimpleVector α) :
    (ctor_move a).2 = a ∧
    (ctor_move a).2.size_ = a.size_ ∧
    (ctor_move a).2.capacity_ = a.capacity_ ∧
    toList (ctor_move a).2 = toList a ∧
    (ctor_move a).1.size_ = 0 ∧
    (ctor_move a).1.capacity_ = 0 ∧
    toList (ctor_move a).1 = [] ∧
    ∀ item, ∃ w : SimpleVector α, (ctor_move a).1.PushBack (.object item) = .ok w ∧
      toList w = [item] ∧ w.size_ = 1 ∧ w.capacity_ = 1 := by
  refine ⟨rfl, rfl, rfl, rfl, rfl, rfl, ?_, ?_⟩
  · simp [toList, ctor_move, swap, ArrayPtr.swap]
  · intro item
    have hm : (ctor_move a).1 = ⟨ArrayPtr.alloc a.capacity_, 0, 0⟩ := rfl
    obtain ⟨r, hr, hlen, hget⟩ := IncreaseCapacity_spec
      (⟨ArrayPtr.alloc a.capacity_, 0, 0⟩ : SimpleVector α) 1 (Nat.zero_le _) (Nat.zero_le _)
    have hw : 0 < r.block.length := by omega
    have h1 : max 1 (0 * 2 % SIZE_MOD) = 1 := by decide
    have h2 : (0 + 1) % SIZE_MOD = 1 := by decide
    refine ⟨⟨⟨some (r.block.set 0 item)⟩, 1, 1⟩, ?_, ?_, rfl, rfl⟩
    · rw [hm]
      simp only [PushBack, if_true, h1, hr, Outcome.ok_bind, Arg.read_object,
        ArrayPtr.write_of_lt _ _ _ hw, Outcome.pure_eq_ok, h2]
    · apply List.ext_getElem?
      intro i
      rw [toList_getElem?]
      show (if i < 1 then (r.block.set 0 item)[i]? else none) = _
      by_cases c0 : i < 1
      · have : i = 0 := by omega
        subst this
        simp [List.getElem?_set, hw]
      · rw [if_neg c0]
        have : i = (i - 1) + 1 := by omega
        rw [this]
        simp

/-- Instance of C10 on `{1, 2, 3}` with capacity 4: the moved-from object
holds a block of 4 fresh elements with size 0 and capacity 0. -/
theorem ctor_move_contract_witness :
    ctor_move sample_spare = (⟨⟨some [-1, -1, -1, -1]⟩, 0, 0⟩, sample_spare) ∧
    (ctor_move sample_spare).1.PushBack (.object 5) = .ok ⟨⟨some [5]⟩, 1, 1⟩ ∧
    (ctor_move sample_spare).2 = sample_spare ∧
    (ctor_move sample_spare).2.size_ = sample_spare.size_ ∧
    (ctor_move sample_spare).2.capacity_ = sample_spare.capacity_ ∧
    toList (ctor_move sample_spare).2 = toList sample_spare ∧
    (ctor_move sample_spare).1.size_ = 0 ∧
    (ctor_move sample_spare).1.capacity_ = 0 ∧
    toList (ctor_move sample_spare).1 = [] ∧
    ∀ item, ∃ w : SimpleVector Int, (ctor_move sample_spare).1.PushBack (.object item) = .ok w ∧
      toList w = [item] ∧ w.size_ = 1 ∧ w.capacity_ = 1 :=
  ⟨rfl, rfl, ctor_move_contract sample_spare⟩

end SimpleVector

namespace SimpleVector
variable {α : Type}

theorem subscript_of_lt (v : SimpleVector α) (i : Nat) (h : i < v.items_.block.length) :
    v.subscript i = .ok (v.items_.block.get ⟨i, h⟩) :=
  ArrayPtr.read_of_lt _ _ h

theorem eq_spec_toList [BEq α] (a b : SimpleVector α) (ha : a.size_ ≤ a.items_.block.length)
    (hb : b.size_ ≤ b.items_.block.length) :
    ∃ r, SimpleVector.eq a b = .ok r ∧
      (r = true ↔ (toList a).length = (toList b).length ∧ ∀ (i : Nat) (x y : α),
        (toList a)[i]? = some x → (toList b)[i]? = some y → (x == y) = true) := by
  obtain ⟨r, hr, hiff⟩ := eq_spec a b ha hb
  refine ⟨r, hr, ?_⟩
  rw [hiff, length_toList a ha, length_toList b hb]
  constructor
  · rintro ⟨hsz, h⟩
    refine ⟨hsz, ?_⟩
    intro i x y hx hy
    rw [toList_getElem?] at hx hy
    by_cases hi : i < a.size_
    · rw [if_pos hi] at hx
      rw [if_pos (by omega)] at hy
      exact h i hi x y hx hy
    · rw [if_neg hi] at hx
      cases hx
  · rintro ⟨hsz, h⟩
    refine ⟨hsz, ?_⟩
    intro i hi x y hx hy
    apply h i x y
    · rw [toList_getElem?, if_pos hi]; exact hx
    · rw [toList_getElem?, if_pos (by omega)]; exact hy

/-- C11: for two vectors whose live elements lie in their blocks, `lhs == rhs`
yields `true` exactly when the sizes are equal and `lhs[i] == rhs[i]` for every
`i < size`; `lhs != rhs` yields the negation; and the result is the same for
any two vectors with the same logical sequences, whatever their capacities and
the values in their slots at `[size, capacity)`. -/
theorem eq_compares_live_elements [BEq α] (lhs rhs : SimpleVector α)
    (hl : lhs.size_ ≤ lhs.items_.block.length) (hr : rhs.size_ ≤ rhs.items_.block.length) :
    ∃ r : Bool,
      SimpleVector.eq lhs rhs = .ok r ∧
      SimpleVector.ne lhs rhs = .ok (!r) ∧
      (r = true ↔ lhs.size_ = rhs.size_ ∧ ∀ i, i < lhs.size_ →
        ∃ x y, lhs.subscript i = .ok x ∧ rhs.subscript i = .ok y ∧ (x == y) = true) ∧
      ∀ lhs2 rhs2 : SimpleVector α,
        lhs2.size_ ≤ lhs2.items_.block.length → rhs2.size_ ≤ rhs2.items_.block.length →
        toList lhs2 = toList lhs → toList rhs2 = toList rhs →
        SimpleVector.eq lhs2 rhs2 = .ok r := by
  obtain ⟨r, hr1, hiff⟩ := eq_spec lhs rhs hl hr
  obtain ⟨r1, hr2, hiff2⟩ := eq_spec_toList lhs rhs hl hr
  have hrr : r1 = r := by
    rw [hr1] at hr2
    cases hr2
    rfl
  subst hrr
  refine ⟨r1, hr1, ?_, ?_, ?_⟩
  · simp only [ne, hr1, Outcome.ok_bind, Outcome.pure_eq_ok]
  · rw [hiff]
    constructor
    · rintro ⟨hsz, h⟩
      refine ⟨hsz, ?_⟩
      intro i hi
      have h1 : i < lhs.items_.block.length := by omega
      have h2 : i < rhs.items_.block.length := by omega
      exact ⟨_, _, subscript_of_lt lhs i h1, subscript_of_lt rhs i h2,
        h i hi _ _ (List.getElem?_eq_getElem h1) (List.getElem?_eq_getElem h2)⟩
    · rintro ⟨hsz, h⟩
      refine ⟨hsz, ?_⟩
      intro i hi x y hx hy
      obtain ⟨x1, y1, hx1, hy1, hxy⟩ := h i hi
      simp only [subscript, ArrayPtr.read, hx, hy] at hx1 hy1
      cases hx1
      cases hy1
      exact hxy
  · intro lhs2 rhs2 hl2 hr2b e1 e2
    obtain ⟨r2, hr3, hiff3⟩ := eq_spec_toList lhs2 rhs2 hl2 hr2b
    rw [e1, e2] at hiff3
    have : r2 = r1 := Bool.eq_iff_iff.mpr (hiff3.trans hiff2.symm)
    rw [hr3, this]

/-- Instance of C11 on `{1, 2, 3}` with capacity 4 (a stale slot) and
`{1, 2, 3}` with capacity 3. -/
theorem eq_compares_live_elements_witness :
    sample_spare.size_ ≤ sample_spare.items_.block.length ∧
    sample_tight.size_ ≤ sample_tight.items_.block.length ∧
    SimpleVector.eq sample_spare sample_tight = .ok true ∧
    SimpleVector.eq sample_spare sample_124 = .ok false ∧
    ∃ r : Bool,
      SimpleVector.eq sample_spare sample_tight = .ok r ∧
      SimpleVector.ne sample_spare sample_tight = .ok (!r) ∧
      (r = true ↔ sample_spare.size_ = sample_tight.size_ ∧ ∀ i, i < sample_spare.size_ →
        ∃ x y, sample_spare.subscript i = .ok x ∧ sample_tight.subscript i = .ok y ∧
          (x == y) = true) ∧
      ∀ lhs2 rhs2 : SimpleVector Int,
        lhs2.size_ ≤ lhs2.items_.block.length → rhs2.size_ ≤ rhs2.items_.block.length →
        toList lhs2 = toList sample_spare → toList rhs2 = toList sample_tight →
        SimpleVector.eq lhs2 rhs2 = .ok r :=
  ⟨by decide, by decide, rfl, rfl,
    eq_compares_live_elements sample_spare sample_tight (by decide) (by decide)⟩

end SimpleVector


section LexFacts
variable {α : Type}

theorem take_succ_drop (l : List α) (f n : Nat) (h : f < l.length) :
    (l.drop f).take (n + 1) = l.get ⟨f, h⟩ :: (l.drop (f + 1)).take n := by
  rw [List.drop_eq_getElem_cons h, List.take_succ_cons]
  rfl

theorem lexicographical_compare_loop_spec [LT α] [DecidableRel (fun x y : α => x < y)]
    (a b : ArrayPtr α) (n1 : Nat) : ∀ (n2 f1 f2 : Nat),
    f1 + n1 ≤ a.block.length → f2 + n2 ≤ b.block.length →
    lexicographical_compare_loop a f1 b f2 n1 n2 =
      .ok (lexLt ((a.block.drop f1).take n1) ((b.block.drop f2).take n2)) := by
  induction n1 with
  | zero =>
    intro n2 f1 f2 _ h2
    cases n2 with
    | zero => simp [lexicographical_compare_loop, lexLt]
    | succ n2 =>
      have hb : f2 < b.block.length := by omega
      rw [take_succ_drop _ _ _ hb]
      simp [lexicographical_compare_loop, lexLt]
  | succ n1 ih =>
    intro n2 f1 f2 h1 h2
    have ha : f1 < a.block.length := by omega
    cases n2 with
    | zero =>
      rw [take_succ_drop _ _ _ ha]
      simp [lexicographical_compare_loop, lexLt]
    | succ n2 =>
      have hb : f2 < b.block.length := by omega
      rw [take_succ_drop _ _ _ ha, take_succ_drop _ _ _ hb]
      simp only [lexicographical_compare_loop, ArrayPtr.read_of_lt _ _ ha,
        ArrayPtr.read_of_lt _ _ hb, Outcome.ok_bind, lexLt]
      by_cases c1 : a.block.get ⟨f1, ha⟩ < b.block.get ⟨f2, hb⟩
      · rw [if_pos c1, if_pos c1]
      · rw [if_neg c1, if_neg c1]
        by_cases c2 : b.block.get ⟨f2, hb⟩ < a.block.get ⟨f1, ha⟩
        · rw [if_pos c2, if_pos c2]
        · rw [if_neg c2, if_neg c2]
          exact ih n2 (f1 + 1) (f2 + 1) (by omega) (by omega)

theorem lexLt_iff_LexLess [LinearOrder α] (s : List α) : ∀ t : List α,
    lexLt s t = true ↔ LexLess s t := by
  induction s with
  | nil =>
    intro t
    cases t with
    | nil =>
      simp only [lexLt, LexLess]
      constructor
      · intro h; cases h
      · rintro (⟨k, x, y, hx, _⟩ | ⟨h, _⟩)
        · simp at hx
        · simp at h
    | cons y ys =>
      simp only [lexLt, LexLess, true_iff]
      right
      exact ⟨by simp, by intro i hi; simp at hi⟩
  | cons x xs ih =>
    intro t
    cases t with
    | nil =>
      simp only [lexLt, LexLess]
      constructor
      · intro h; cases h
      · rintro (⟨k, x1, y1, _, hy, _⟩ | ⟨h, _⟩)
        · simp at hy
        · simp at h
    | cons y ys =>
      simp only [lexLt]
      by_cases c1 : x < y
      · rw [if_pos c1]
        simp only [true_iff]
        left
        exact ⟨0, x, y, by simp, by simp, c1, by intro i hi; omega⟩
      · rw [if_neg c1]
        by_cases c2 : y < x
        · rw [if_pos c2]
          constructor
          · intro h; cases h
          · rintro (⟨k, x1, y1, hx, hy, hlt, hpre⟩ | ⟨_, hpre⟩)
            · cases k with
              | zero =>
                simp at hx hy
                subst hx; subst hy
                exact absurd hlt c1
              | succ k =>
                have := hpre 0 (by omega)
                simp at this
                subst this
                exact absurd c2 (lt_irrefl _)
            · have := hpre 0 (by simp)
              simp at this
              subst this
              exact absurd c2 (lt_irrefl _)
        · rw [if_neg c2]
          have hxy : x = y := le_antisymm (not_lt.mp c2) (not_lt.mp c1)
          subst hxy
          rw [ih ys]
          constructor
          · rintro (⟨k, x1, y1, hx, hy, hlt, hpre⟩ | ⟨hlen, hpre⟩)
            · left
              refine ⟨k + 1, x1, y1, by simpa using hx, by simpa using hy, hlt, ?_⟩
              intro i hi
              cases i with
              | zero => simp
              | succ i => simpa using hpre i (by omega)
            · right
              refine ⟨by simpa using hlen, ?_⟩
              intro i hi
              cases i with
              | zero => simp
              | succ i => simpa using hpre i (by simpa using hi)
          · rintro (⟨k, x1, y1, hx, hy, hlt, hpre⟩ | ⟨hlen, hpre⟩)
            · cases k with
              | zero =>
                simp at hx hy
                subst hx; subst hy
                exact absurd hlt (lt_irrefl _)
              | succ k =>
                left
                refine ⟨k, x1, y1, by simpa using hx, by simpa using hy, hlt, ?_⟩
                intro i hi
                simpa using hpre (i + 1) (by omega)
            · right
              refine ⟨by simpa using hlen, ?_⟩
              intro i hi
              simpa using hpre (i + 1) (by simpa using hi)

theorem lexLt_trichotomy [LinearOrder α] (s : List α) : ∀ t : List α,
    (lexLt s t = true ∧ s ≠ t ∧ lexLt t s = false) ∨
    (lexLt s t = false ∧ s = t ∧ lexLt t s = false) ∨
    (lexLt s t = false ∧ s ≠ t ∧ lexLt t s = true) := by
  induction s with
  | nil =>
    intro t
    cases t with
    | nil => right; left; exact ⟨rfl, rfl, rfl⟩
    | cons y ys => left; exact ⟨rfl, by simp, rfl⟩
  | cons x xs ih =>
    intro t
    cases t with
    | nil => right; right; exact ⟨rfl, by simp, rfl⟩
    | cons y ys =>
      simp only [lexLt]
      by_cases c1 : x < y
      · have c2 : ¬ (y < x) := not_lt.mpr (le_of_lt c1)
        left
        rw [if_pos c1, if_neg c2, if_pos c1]
        refine ⟨rfl, ?_, rfl⟩
        intro h
        cases h
        exact absurd c1 (lt_irrefl _)
      · by_cases c2 : y < x
        · right; right
          rw [if_neg c1, if_pos c2, if_pos c2]
          refine ⟨rfl, ?_, rfl⟩
          intro h
          cases h
          exact absurd c2 (lt_irrefl _)
        · rw [if_neg c1, if_neg c2, if_neg c2, if_neg c1]
          have hxy : x = y := le_antisymm (not_lt.mp c2) (not_lt.mp c1)
          subst hxy
          rcases ih ys with ⟨h1, h2, h3⟩ | ⟨h1, h2, h3⟩ | ⟨h1, h2, h3⟩
          · left
            exact ⟨h1, by simpa using h2, h3⟩
          · right; left
            exact ⟨h1, by simpa using h2, h3⟩
          · right; right
            exact ⟨h1, by simpa using h2, h3⟩

end LexFacts

namespace SimpleVector
variable {α : Type}

theorem lt_spec [LT α] [DecidableRel (fun x y : α => x < y)] (a b : SimpleVector α)
    (ha : a.size_ ≤ a.items_.block.length) (hb : b.size_ ≤ b.items_.block.length) :
    lt a b = .ok (lexLt (toList a) (toList b)) := by
  have h := lexicographical_compare_loop_spec a.items_ b.items_ a.size_ b.size_ 0 0
    (by omega) (by omega)
  simp only [List.drop_zero] at h
  simp only [lt, std_lexicographical_compare, begin_, end_, Nat.zero_add, Nat.zero_le, and_self,
    if_true, Nat.sub_zero, h, toList]

end SimpleVector

namespace SimpleVector
variable {α : Type}

theorem eq_true_iff_toList_eq [BEq α] [LawfulBEq α] (a b : SimpleVector α)
    (ha : a.size_ ≤ a.items_.block.length) (hb : b.size_ ≤ b.items_.block.length) :
    ∃ r, SimpleVector.eq a b = .ok r ∧ (r = true ↔ toList a = toList b) := by
  obtain ⟨r, hr, hiff⟩ := eq_spec_toList a b ha hb
  refine ⟨r, hr, ?_⟩
  rw [hiff]
  constructor
  · rintro ⟨hlen, h⟩
    apply List.ext_getElem hlen
    intro i h1 h2
    have := h i _ _ (List.getElem?_eq_getElem h1) (List.getElem?_eq_getElem h2)
    simpa using this
  · intro h
    rw [h]
    refine ⟨rfl, ?_⟩
    intro i x y hx hy
    rw [hx] at hy
    cases hy
    simp

/-- C12: for two vectors over a linearly ordered element type whose live
elements lie in their blocks, `lhs < rhs` yields `true` exactly when the logical
sequence of `lhs` is smaller at the first index where the two differ or is a
proper prefix of that of `rhs`; in particular `{1,2,3} < {1,2,4}` and
`{1,2} < {1,2,3}` yield `true` and `{1,2,3} < {1,2,3}` yields `false`. -/
theorem lt_is_lexicographic [LinearOrder α] (lhs rhs : SimpleVector α)
    (hl : lhs.size_ ≤ lhs.items_.block.length) (hr : rhs.size_ ≤ rhs.items_.block.length) :
    (∃ r : Bool, lt lhs rhs = .ok r ∧ (r = true ↔ LexLess (toList lhs) (toList rhs))) ∧
    (toList sample_spare = [1, 2, 3] ∧ toList sample_124 = [1, 2, 4] ∧
      toList sample_12 = [1, 2]) ∧
    lt sample_spare sample_124 = .ok true ∧
    lt sample_12 sample_spare = .ok true ∧
    lt sample_spare sample_spare = .ok false := by
  refine ⟨⟨_, lt_spec lhs rhs hl hr, lexLt_iff_LexLess _ _⟩, ⟨rfl, rfl, rfl⟩, rfl, rfl, rfl⟩

/-- Instance of C12 on `{1, 2}` (capacity 3) and `{1, 2, 3}` (capacity 4). -/
theorem lt_is_lexicographic_witness :
    sample_12.size_ ≤ sample_12.items_.block.length ∧
    sample_spare.size_ ≤ sample_spare.items_.block.length ∧
    (∃ r : Bool, lt sample_12 sample_spare = .ok r ∧
      (r = true ↔ LexLess (toList sample_12) (toList sample_spare))) :=
  ⟨by decide, by decide,
    (lt_is_lexicographic sample_12 sample_spare (by decide) (by decide)).1⟩

/-- C19: for two vectors over a linearly ordered element type whose live
elements lie in their blocks, `a <= b` yields `true` exactly when `a < b` or
`a == b` does, `a >= b` exactly when `b < a` or `a == b` does, `a > b` yields
what `b < a` yields, and exactly one of `a < b`, `a == b`, `b < a` yields
`true`. -/
theorem derived_comparisons_consistent [LinearOrder α] (a b : SimpleVector α)
    (ha : a.size_ ≤ a.items_.block.length) (hb : b.size_ ≤ b.items_.block.length) :
    ∃ rlt req rgt : Bool,
      lt a b = .ok rlt ∧ SimpleVector.eq a b = .ok req ∧ lt b a = .ok rgt ∧
      (∃ rle : Bool, le a b = .ok rle ∧ (rle = true ↔ rlt = true ∨ req = true)) ∧
      (∃ rge : Bool, ge a b = .ok rge ∧ (rge = true ↔ rgt = true ∨ req = true)) ∧
      gt a b = .ok rgt ∧
      ((rlt = true ∧ req = false ∧ rgt = false) ∨
       (rlt = false ∧ req = true ∧ rgt = false) ∨
       (rlt = false ∧ req = false ∧ rgt = true)) := by
  obtain ⟨req, hreq, heq⟩ := eq_true_iff_toList_eq a b ha hb
  have h1 := lt_spec a b ha hb
  have h2 := lt_spec b a hb ha
  have htri := lexLt_trichotomy (toList a) (toList b)
  refine ⟨_, req, _, h1, hreq, h2, ⟨!(lexLt (toList b) (toList a)), ?_, ?_⟩,
    ⟨!(lexLt (toList a) (toList b)), ?_, ?_⟩, ?_, ?_⟩
  · simp only [le, ge, h2, Outcome.ok_bind, Outcome.pure_eq_ok]
  · rw [heq]
    rcases htri with ⟨t1, t2, t3⟩ | ⟨t1, t2, t3⟩ | ⟨t1, t2, t3⟩ <;>
      (rw [t1, t3]; simp [t2])
  · simp only [ge, h1, Outcome.ok_bind, Outcome.pure_eq_ok]
  · rw [heq]
    rcases htri with ⟨t1, t2, t3⟩ | ⟨t1, t2, t3⟩ | ⟨t1, t2, t3⟩ <;>
      (rw [t1, t3]; simp [t2])
  · simp only [gt, h2]
  · rcases htri with ⟨t1, t2, t3⟩ | ⟨t1, t2, t3⟩ | ⟨t1, t2, t3⟩
    · left
      refine ⟨t1, ?_, t3⟩
      cases hq : req
      · rfl
      · exact absurd (heq.mp hq) t2
    · right; left
      exact ⟨t1, heq.mpr t2, t3⟩
    · right; right
      refine ⟨t1, ?_, t3⟩
      cases hq : req
      · rfl
      · exact absurd (heq.mp hq) t2

/-- Instance of C19 on `{1, 2, 3}` and `{1, 2, 4}`. -/
theorem derived_comparisons_consistent_witness :
    sample_spare.size_ ≤ sample_spare.items_.block.length ∧
    sample_124.size_ ≤ sample_124.items_.block.length ∧
    le sample_spare sample_124 = .ok true ∧ ge sample_spare sample_124 = .ok false ∧
    gt sample_spare sample_124 = .ok false ∧
    ∃ rlt req rgt : Bool,
      lt sample_spare sample_124 = .ok rlt ∧ SimpleVector.eq sample_spare sample_124 = .ok req ∧
      lt sample_124 sample_spare = .ok rgt ∧
      (∃ rle : Bool, le sample_spare sample_124 = .ok rle ∧
        (rle = true ↔ rlt = true ∨ req = true)) ∧
      (∃ rge : Bool, ge sample_spare sample_124 = .ok rge ∧
        (rge = true ↔ rgt = true ∨ req = true)) ∧
      gt sample_spare sample_124 = .ok rgt ∧
      ((rlt = true ∧ req = false ∧ rgt = false) ∨
       (rlt = false ∧ req = true ∧ rgt = false) ∨
       (rlt = false ∧ req = false ∧ rgt = true)) :=
  ⟨by decide, by decide, rfl, rfl, rfl,
    derived_comparisons_consistent sample_spare sample_124 (by decide) (by decide)⟩

end SimpleVector

namespace SimpleVector
variable {α : Type}

theorem PushBack_all_within_capacity [Element α] (xs : List α) : ∀ v : SimpleVector α,
    v.size_ + xs.length ≤ v.capacity_ → v.capacity_ ≤ v.items_.block.length →
    2 * v.capacity_ < SIZE_MOD →
    ∃ items : ArrayPtr α,
      PushBack_all v xs = .ok ⟨items, v.size_ + xs.length, v.capacity_⟩ ∧
      items.block.length = v.items_.block.length ∧
      toList (⟨items, v.size_ + xs.length, v.capacity_⟩ : SimpleVector α) = toList v ++ xs := by
  induction xs with
  | nil =>
    intro v _ _ _
    exact ⟨v.items_, rfl, rfl, by simp [toList]⟩
  | cons x xs ih =>
    intro v h1 h2 h3
    simp only [List.length_cons] at h1
    have hv : v.InContract := ⟨by omega, h2, h3⟩
    have hnf : ¬ (v.size_ = v.capacity_) := by omega
    obtain ⟨items1, hp, hlen1, hat, hget⟩ := PushBack_spec_gen v x hv
    simp only [if_neg hnf] at hp hlen1
    obtain ⟨items, hr, hlen, hseq⟩ := ih (⟨items1, v.size_ + 1, v.capacity_⟩ : SimpleVector α)
      (by show v.size_ + 1 + xs.length ≤ v.capacity_; omega)
      (by show v.capacity_ ≤ items1.block.length; omega) h3
    have e : v.size_ + 1 + xs.length = v.size_ + (xs.length + 1) := by omega
    refine ⟨items, ?_, ?_, ?_⟩
    · simp only [PushBack_all, hp, Outcome.ok_bind, List.length_cons]
      rw [← e]; exact hr
    · rw [hlen]; exact hlen1
    · simp only [List.length_cons]
      rw [← e]
      show toList (⟨items, v.size_ + 1 + xs.length, v.capacity_⟩ : SimpleVector α) = _
      rw [hseq, toList_push v items1 x v.capacity_ (by omega) hat hget]
      simp

theorem PushBack_all_run [Element α] (xs : List α) : ∀ v : SimpleVector α,
    v.size_ ≤ v.capacity_ → v.capacity_ ≤ v.items_.block.length →
    (v.capacity_ = 0 ∨ v.capacity_ < 2 * v.size_) →
    (v.capacity_ = 0 ∨ ∃ j, v.capacity_ = 2 ^ j) →
    v.size_ + xs.length ≤ 2 ^ 62 →
    ∃ (w : SimpleVector α) (t : Nat),
      PushBack_all v xs = .ok w ∧ PushBack_all_transfers v xs = .ok t ∧
      w.size_ = v.size_ + xs.length ∧ toList w = toList v ++ xs ∧
      w.size_ ≤ w.capacity_ ∧ w.capacity_ ≤ w.items_.block.length ∧
      (w.capacity_ = 0 ∨ w.capacity_ < 2 * w.size_) ∧
      (w.capacity_ = 0 ∨ ∃ j, w.capacity_ = 2 ^ j) ∧
      t + v.capacity_ ≤ w.capacity_ := by
  induction xs with
  | nil =>
    intro v h1 h2 h3 h4 _
    exact ⟨v, 0, rfl, rfl, rfl, by simp, h1, h2, h3, h4, by omega⟩
  | cons x xs ih =>
    intro v h1 h2 h3 h4 h5
    simp only [List.length_cons] at h5
    have hv : v.InContract := ⟨h1, h2, by unfold SIZE_MOD; omega⟩
    obtain ⟨items1, hp, hlen1, hat, hget⟩ := PushBack_spec_gen v x hv
    have hseq1 := toList_push v items1 x
      (if v.size_ = v.capacity_ then max 1 (2 * v.capacity_) else v.capacity_) (by omega) hat hget
    by_cases hfull : v.size_ = v.capacity_
    · simp only [if_pos hfull] at hp hlen1 hseq1
      obtain ⟨w, t, hw, ht, hsz, hseq, i1, i2, i3, i4, i5⟩ := ih
        (⟨items1, v.size_ + 1, max 1 (2 * v.capacity_)⟩ : SimpleVector α)
        (by show v.size_ + 1 ≤ max 1 (2 * v.capacity_); omega)
        (by show max 1 (2 * v.capacity_) ≤ items1.block.length; omega)
        (by right; show max 1 (2 * v.capacity_) < 2 * (v.size_ + 1); omega)
        (by
          right
          show ∃ j, max 1 (2 * v.capacity_) = 2 ^ j
          rcases h4 with h0 | ⟨j, hj⟩
          · exact ⟨0, by rw [h0]; rfl⟩
          · refine ⟨j + 1, ?_⟩
            have hpos : 0 < 2 ^ j := Nat.pow_pos (by omega)
            rw [hj, Nat.pow_succ]
            omega)
        (by show v.size_ + 1 + xs.length ≤ 2 ^ 62; omega)
      refine ⟨w, v.size_ + t, ?_, ?_, ?_, ?_, i1, i2, i3, i4, ?_⟩
      · simp only [PushBack_all, hp, Outcome.ok_bind]
        exact hw
      · simp only [PushBack_all_transfers, hp, Outcome.ok_bind, ht, Outcome.pure_eq_ok,
          PushBack_transfers, if_pos hfull, IncreaseCapacity_transfers, begin_, end_,
          Nat.zero_add, Nat.sub_zero]
      · rw [hsz]
        show v.size_ + 1 + xs.length = v.size_ + (xs.length + 1)
        omega
      · rw [hseq, hseq1]
        simp
      · have : t + max 1 (2 * v.capacity_) ≤ w.capacity_ := i5
        omega
    · simp only [if_neg hfull] at hp hlen1 hseq1
      obtain ⟨w, t, hw, ht, hsz, hseq, i1, i2, i3, i4, i5⟩ := ih
        (⟨items1, v.size_ + 1, v.capacity_⟩ : SimpleVector α)
        (by show v.size_ + 1 ≤ v.capacity_; omega)
        (by show v.capacity_ ≤ items1.block.length; omega)
        (by right; show v.capacity_ < 2 * (v.size_ + 1); omega)
        h4
        (by show v.size_ + 1 + xs.length ≤ 2 ^ 62; omega)
      refine ⟨w, t, ?_, ?_, ?_, ?_, i1, i2, i3, i4, ?_⟩
      · simp only [PushBack_all, hp, Outcome.ok_bind]
        exact hw
      · simp only [PushBack_all_transfers, hp, Outcome.ok_bind, ht, Outcome.pure_eq_ok,
          PushBack_transfers, if_neg hfull, Nat.zero_add]
      · rw [hsz]
        show v.size_ + 1 + xs.length = v.size_ + (xs.length + 1)
        omega
      · rw [hseq, hseq1]
        simp
      · exact i5

end SimpleVector

namespace SimpleVector
variable {α : Type}

/-- C13: on a vector in contract with capacity `c`, `Clear()` sets the size to
0 and keeps the capacity and the block; then for every `k <= c`, `k` calls of
`PushBack` leave the capacity `c` and the block length as they were, with size
`k` and the pushed values in order; and after `c` such calls the next
`PushBack` installs a block of `max(1, 2 * c)` elements, the first capacity
change. -/
theorem Clear_then_PushBack_reuses_capacity [Element α] (v : SimpleVector α)
    (hv : v.InContract) :
    v.Clear.size_ = 0 ∧ v.Clear.capacity_ = v.capacity_ ∧ v.Clear.items_ = v.items_ ∧
    (∀ xs : List α, xs.length ≤ v.capacity_ →
      ∃ w : SimpleVector α, PushBack_all v.Clear xs = .ok w ∧
        w.capacity_ = v.capacity_ ∧ w.items_.block.length = v.items_.block.length ∧
        w.size_ = xs.length ∧ toList w = xs) ∧
    (∀ (xs : List α) (y : α), xs.length = v.capacity_ →
      ∃ w u : SimpleVector α, PushBack_all v.Clear xs = .ok w ∧
        w.capacity_ = v.capacity_ ∧ w.PushBack (.object y) = .ok u ∧
        u.capacity_ = max 1 (2 * v.capacity_) ∧ v.capacity_ < u.capacity_ ∧
        u.items_.block.length = max 1 (2 * v.capacity_) ∧ toList u = xs ++ [y]) := by
  have hc := hv.capacity_le
  have hd := hv.double_fits
  have key : ∀ xs : List α, xs.length ≤ v.capacity_ →
      ∃ items : ArrayPtr α, PushBack_all v.Clear xs = .ok ⟨items, xs.length, v.capacity_⟩ ∧
        items.block.length = v.items_.block.length ∧
        toList (⟨items, xs.length, v.capacity_⟩ : SimpleVector α) = xs := by
    intro xs hxs
    obtain ⟨items, hr, hlen, hseq⟩ := PushBack_all_within_capacity xs v.Clear
      (by show 0 + xs.length ≤ v.capacity_; omega) hc hd
    have e : (v.Clear).size_ + xs.length = xs.length := by
      show 0 + xs.length = xs.length
      omega
    rw [e] at hr hseq
    have h0 : toList v.Clear = [] := by simp [toList, Clear]
    rw [h0, List.nil_append] at hseq
    exact ⟨items, hr, hlen, hseq⟩
  refine ⟨rfl, rfl, rfl, ?_, ?_⟩
  · intro xs hxs
    obtain ⟨items, hr, hlen, hseq⟩ := key xs hxs
    exact ⟨_, hr, rfl, hlen, rfl, hseq⟩
  · intro xs y hxs
    obtain ⟨items, hr, hlen, hseq⟩ := key xs (by omega)
    have hw : (⟨items, xs.length, v.capacity_⟩ : SimpleVector α).InContract :=
      ⟨by show xs.length ≤ v.capacity_; omega,
        by show v.capacity_ ≤ items.block.length; omega, hd⟩
    obtain ⟨items1, hp, hlen1, hat, hget⟩ := PushBack_spec_gen _ y hw
    have hfull : (⟨items, xs.length, v.capacity_⟩ : SimpleVector α).size_ =
        (⟨items, xs.length, v.capacity_⟩ : SimpleVector α).capacity_ := hxs
    have hseq1 := toList_push _ items1 y (max 1 (2 * v.capacity_))
      (by show xs.length ≤ items.block.length; omega) hat hget
    rw [if_pos hfull] at hp hlen1
    refine ⟨_, _, hr, rfl, hp, rfl, ?_, hlen1, ?_⟩
    · show v.capacity_ < max 1 (2 * v.capacity_)
      omega
    · exact hseq1.trans (by rw [hseq])

/-- Instance of C13 on `{1, 9, 2, 3}` with capacity 4: four pushes after
`Clear()` reuse the block, the fifth installs a block of 8. -/
theorem Clear_then_PushBack_reuses_capacity_witness :
    sample_full.InContract ∧
    PushBack_all sample_full.Clear [5, 6, 7, 8] = .ok ⟨⟨some [5, 6, 7, 8]⟩, 4, 4⟩ ∧
    PushBack_all sample_full.Clear [5, 6, 7, 8, 0]
      = .ok ⟨⟨some [5, 6, 7, 8, 0, -1, -1, -1]⟩, 5, 8⟩ ∧
    sample_full.Clear.size_ = 0 ∧ sample_full.Clear.capacity_ = sample_full.capacity_ ∧
    sample_full.Clear.items_ = sample_full.items_ ∧
    (∀ xs : List Int, xs.length ≤ sample_full.capacity_ →
      ∃ w : SimpleVector Int, PushBack_all sample_full.Clear xs = .ok w ∧
        w.capacity_ = sample_full.capacity_ ∧
        w.items_.block.length = sample_full.items_.block.length ∧
        w.size_ = xs.length ∧ toList w = xs) ∧
    (∀ (xs : List Int) (y : Int), xs.length = sample_full.capacity_ →
      ∃ w u : SimpleVector Int, PushBack_all sample_full.Clear xs = .ok w ∧
        w.capacity_ = sample_full.capacity_ ∧ w.PushBack (.object y) = .ok u ∧
        u.capacity_ = max 1 (2 * sample_full.capacity_) ∧ sample_full.capacity_ < u.capacity_ ∧
        u.items_.block.length = max 1 (2 * sample_full.capacity_) ∧ toList u = xs ++ [y]) :=
  ⟨⟨by decide, by decide, by decide⟩, rfl, rfl,
    Clear_then_PushBack_reuses_capacity sample_full ⟨by decide, by decide, by decide⟩⟩

/-- C16: starting from the empty vector (size 0, capacity 0), `n` consecutive
`PushBack` calls succeed and the element transfers that `IncreaseCapacity`
performs across them total at most `2 * n`; `n` is at most `2 ^ 62`, so that no
block of the run exceeds `PTRDIFF_MAX` elements. -/
theorem PushBack_transfers_bounded [Element α] (xs : List α) (hn : xs.length ≤ 2 ^ 62) :
    ∃ (w : SimpleVector α) (t : Nat),
      PushBack_all ctor_default xs = .ok w ∧
      PushBack_all_transfers (ctor_default : SimpleVector α) xs = .ok t ∧
      t ≤ 2 * xs.length := by
  obtain ⟨w, t, hw, ht, hsz, _, _, _, i3, _, i5⟩ := PushBack_all_run xs
    (ctor_default : SimpleVector α) (Nat.le_refl _) (Nat.zero_le _) (Or.inl rfl) (Or.inl rfl)
    (by show 0 + xs.length ≤ 2 ^ 62; omega)
  refine ⟨w, t, hw, ht, ?_⟩
  have h0 : (ctor_default : SimpleVector α).capacity_ = 0 := rfl
  have h1 : (ctor_default : SimpleVector α).size_ = 0 := rfl
  rw [h0] at i5
  rw [h1] at hsz
  omega

/-- Instance of C16 on nine pushes: 0 + 1 + 2 + 4 + 8 = 15 transfers. -/
theorem PushBack_transfers_bounded_witness :
    [1, 2, 3, 4, 5, 6, 7, 8, (9 : Int)].length ≤ 2 ^ 62 ∧
    PushBack_all_transfers (ctor_default : SimpleVector Int) [1, 2, 3, 4, 5, 6, 7, 8, 9]
      = .ok 15 ∧
    ∃ (w : SimpleVector Int) (t : Nat),
      PushBack_all ctor_default [1, 2, 3, 4, 5, 6, 7, 8, 9] = .ok w ∧
      PushBack_all_transfers (ctor_default : SimpleVector Int) [1, 2, 3, 4, 5, 6, 7, 8, 9]
        = .ok t ∧
      t ≤ 2 * [1, 2, 3, 4, 5, 6, 7, 8, (9 : Int)].length :=
  ⟨by decide, rfl, PushBack_transfers_bounded [1, 2, 3, 4, 5, 6, 7, 8, 9] (by decide)⟩

end SimpleVector

namespace SimpleVector
variable {α : Type}

theorem ctor_size_spec [Element α] (n : Nat) :
    ∃ items : ArrayPtr α, (ctor_size n : Outcome (SimpleVector α)) = .ok ⟨items, n, n⟩ ∧
      items.block.length = n ∧ ∀ i, i < n → items.block[i]? = some Element.value_init := by
  obtain ⟨r, hr, hlen, hget⟩ := Fill_spec (⟨ArrayPtr.alloc n, n, n⟩ : SimpleVector α) 0 (0 + n)
    (by rw [ArrayPtr.block_alloc]; simp)
  rw [ArrayPtr.block_alloc, List.length_replicate] at hlen
  refine ⟨r, ?_, hlen, ?_⟩
  · simp only [ctor_size, begin_, end_]
    exact hr
  · intro i hi
    rw [hget i, if_pos ⟨Nat.zero_le _, by omega⟩]

theorem ctor_fill_spec [Element α] (n : Nat) (x : α) :
    ∃ items : ArrayPtr α, (ctor_fill n x : Outcome (SimpleVector α)) = .ok ⟨items, n, n⟩ ∧
      items.block.length = n ∧ ∀ i, i < n → items.block[i]? = some x := by
  obtain ⟨r, hr, hlen, hget⟩ := fill_loop_spec x n (ArrayPtr.alloc n : ArrayPtr α) 0
    (by rw [ArrayPtr.block_alloc]; simp)
  rw [ArrayPtr.block_alloc, List.length_replicate] at hlen
  refine ⟨r, ?_, hlen, ?_⟩
  · simp only [ctor_fill, std_fill, begin_, end_, Nat.zero_add, Nat.zero_le, if_true,
      Nat.sub_zero, hr, Outcome.ok_bind, Outcome.pure_eq_ok]
  · intro i hi
    rw [hget i, if_pos ⟨Nat.zero_le _, by omega⟩]

theorem ctor_init_list_spec [Element α] (init : List α) :
    ∃ items : ArrayPtr α,
      (ctor_init_list init : Outcome (SimpleVector α)) = .ok ⟨items, init.length, init.length⟩ ∧
      items.block.length = init.length ∧ ∀ i, i < init.length → items.block[i]? = init[i]? := by
  obtain ⟨r, hr, hlen, hget⟩ := copy_loop_spec (⟨some init⟩ : ArrayPtr α) init.length 0
    (ArrayPtr.alloc init.length) 0 (by simp) (by rw [ArrayPtr.block_alloc]; simp)
  rw [ArrayPtr.block_alloc, List.length_replicate] at hlen
  refine ⟨r, ?_, hlen, ?_⟩
  · simp only [ctor_init_list, std_copy, begin_, Nat.zero_le, if_true, Nat.sub_zero, hr,
      Outcome.ok_bind, Outcome.pure_eq_ok]
  · intro i hi
    rw [hget i, if_pos ⟨Nat.zero_le _, by omega⟩]
    simp

theorem ctor_reserve_spec [Element α] (c : Nat) :
    ∃ items : ArrayPtr α,
      (ctor_reserve (Reserve_proxy c) : Outcome (SimpleVector α)) = .ok ⟨items, 0, c⟩ ∧
      items.block.length = c := by
  by_cases h : c = 0
  · subst h
    refine ⟨ArrayPtr.null, ?_, rfl⟩
    simp [ctor_reserve, Reserve_proxy, ReserveProxyObj.GetNewCapacity, Reserve, ctor_default]
  · obtain ⟨r, hr, hlen, _⟩ := IncreaseCapacity_spec (ctor_default : SimpleVector α) c
      (Nat.zero_le _) (Nat.zero_le _)
    refine ⟨r, ?_, hlen⟩
    have hc : c > (ctor_default : SimpleVector α).capacity_ := by
      show c > 0
      omega
    simp only [ctor_reserve, Reserve_proxy, ReserveProxyObj.GetNewCapacity, Reserve, if_pos hc]
    exact hr

theorem Resize_ok [Element α] (v : SimpleVector α) (n : Nat) (hs : v.size_ ≤ v.capacity_)
    (hc : v.capacity_ ≤ v.items_.block.length) :
    ∃ w : SimpleVector α, v.Resize n = .ok w ∧ w.size_ = n := by
  rcases Nat.lt_trichotomy n v.size_ with hlt | heq | hgt
  · exact ⟨{ v with size_ := n }, by simp only [Resize, if_pos hlt, Outcome.pure_eq_ok], rfl⟩
  · have h1 : ¬ (n < v.size_) := by omega
    have h2 : ¬ (n > v.size_) := by omega
    exact ⟨v, by simp only [Resize, if_neg h1, if_neg h2, Outcome.pure_eq_ok], heq.symm⟩
  · have h1 : ¬ (n < v.size_) := by omega
    by_cases hcap : v.capacity_ < n
    · obtain ⟨r, hr, hlen, _⟩ := IncreaseCapacity_spec v
        (max n (v.capacity_ * 2 % SIZE_MOD)) (by omega) (by omega)
      obtain ⟨r2, hr2, _, _⟩ := Fill_spec (⟨r, v.size_, max n (v.capacity_ * 2 % SIZE_MOD)⟩ :
        SimpleVector α) (0 + v.size_) (0 + n) (by simp only [hlen]; omega)
      refine ⟨⟨r2, n, max n (v.capacity_ * 2 % SIZE_MOD)⟩, ?_, rfl⟩
      simp only [Resize, if_neg h1, gt_iff_lt, if_pos hgt, if_pos hcap, hr, Outcome.ok_bind,
        begin_, hr2, Outcome.pure_eq_ok]
    · obtain ⟨r2, hr2, _, _⟩ := Fill_spec v (0 + v.size_) (0 + n) (by omega)
      refine ⟨⟨r2, n, v.capacity_⟩, ?_, rfl⟩
      simp only [Resize, if_neg h1, gt_iff_lt, if_pos hgt, if_neg hcap, Outcome.pure_eq_ok,
        Outcome.ok_bind, begin_, hr2]

theorem Reserve_ok [Element α] (v : SimpleVector α) (c : Nat) (hs : v.size_ ≤ v.capacity_)
    (hc : v.capacity_ ≤ v.items_.block.length) :
    ∃ w : SimpleVector α, v.Reserve c = .ok w ∧ v.capacity_ ≤ w.capacity_ ∧
      w.size_ = v.size_ := by
  by_cases h : c > v.capacity_
  · obtain ⟨r, hr, _, _⟩ := IncreaseCapacity_spec v c (by omega) (by omega)
    refine ⟨⟨r, v.size_, c⟩, ?_, ?_, rfl⟩
    · simp only [Reserve, if_pos h, hr]
    · show v.capacity_ ≤ c
      omega
  · exact ⟨v, by simp only [Reserve, if_neg h, Outcome.pure_eq_ok], Nat.le_refl _, rfl⟩

theorem Erase_ok (v : SimpleVector α) (k : Nat) (hs : v.size_ ≤ v.items_.block.length)
    (hk : k < v.size_) :
    ∃ w : SimpleVector α, v.Erase k = .ok (w, k) ∧ w.capacity_ = v.capacity_ := by
  obtain ⟨r, hr, _, _⟩ := copy_within_loop_spec (v.size_ - (k + 1)) v.items_ (k + 1) k
    (by omega) (by omega)
  have hk1 : k + 1 ≤ v.size_ := hk
  refine ⟨⟨r, (v.size_ + SIZE_MOD - 1) % SIZE_MOD, v.capacity_⟩, ?_, rfl⟩
  simp only [Erase, begin_, end_, Nat.zero_add, std_copy_within, if_pos hk1, hr,
    Outcome.ok_bind, Outcome.pure_eq_ok]

theorem read_undefined_iff (p : ArrayPtr α) (i : Nat) :
    p.read i = .undefined ↔ p.block.length ≤ i := by
  unfold ArrayPtr.read
  constructor
  · intro h
    by_contra hlt
    rw [List.getElem?_eq_getElem (by omega)] at h
    cases h
  · intro h
    rw [List.getElem?_eq_none h]

theorem write_undefined_iff (p : ArrayPtr α) (i : Nat) (x : α) :
    p.write i x = .undefined ↔ p.block.length ≤ i := by
  unfold ArrayPtr.write
  constructor
  · intro h
    by_contra hlt
    rw [if_pos (by omega)] at h
    cases h
  · intro h
    rw [if_neg (by omega)]

theorem PopBack_size_le (v : SimpleVector α) (h : v.size_ < SIZE_MOD) :
    v.PopBack.size_ ≤ v.size_ ∧ v.PopBack.capacity_ = v.capacity_ ∧
      v.PopBack.items_ = v.items_ := by
  by_cases h0 : v.size_ = 0
  · have : v.PopBack = v := by
      simp only [PopBack, h0, ne_eq, not_true_eq_false, if_false]
    rw [this]
    exact ⟨Nat.le_refl _, rfl, rfl⟩
  · have e := pred_size v.size_ (by omega) h
    have : v.PopBack = { v with size_ := v.size_ - 1 } := by
      simp only [PopBack, ne_eq, h0, not_false_eq_true, if_true, e]
    rw [this]
    exact ⟨Nat.sub_le _ _, rfl, rfl⟩

end SimpleVector

namespace SimpleVector
variable {α : Type}

theorem Resize_spec_gen [Element α] (v : SimpleVector α) (n : Nat) (hv : v.InContract) :
    ∃ items : ArrayPtr α,
      v.Resize n = .ok ⟨items, n,
        if v.capacity_ < n then max n (2 * v.capacity_) else v.capacity_⟩ := by
  have hs := hv.size_le
  rcases Nat.lt_trichotomy n v.size_ with hlt | heq | hgt
  · have hc : ¬ (v.capacity_ < n) := by omega
    exact ⟨v.items_, by simp only [Resize, if_pos hlt, Outcome.pure_eq_ok, if_neg hc]⟩
  · have h1 : ¬ (n < v.size_) := by omega
    have h2 : ¬ (n > v.size_) := by omega
    have hc : ¬ (v.capacity_ < n) := by omega
    refine ⟨v.items_, ?_⟩
    simp only [Resize, if_neg h1, if_neg h2, Outcome.pure_eq_ok, if_neg hc]
    subst heq
    rfl
  · obtain ⟨items, hr, _⟩ := Resize_grow_spec_gen v n hv hgt
    exact ⟨items, hr⟩

/-- C14: `size_ <= capacity_` holds of every object made by a constructor
(default, sized, sized with a value, initializer list, reserve proxy, copy,
move, the moved-from source included) and, on a vector in contract, of the
result of `Reserve`, `Resize`, `PushBack`, `Insert` at `k <= size`, `PopBack`,
`Erase` at `k < size`, `Clear`, `swap`, copy assignment and move assignment,
each of which succeeds.  The argument of `PushBack` and `Insert` is an object
of its own (no condition) or a reference to a live element, for `PushBack` of
a vector with spare capacity. -/
theorem size_le_capacity_invariant [Element α] (v other : SimpleVector α)
    (hv : v.InContract) (ho : other.InContract) :
    (ctor_default : SimpleVector α).size_ ≤ (ctor_default : SimpleVector α).capacity_ ∧
    (∀ n, ∃ w : SimpleVector α, ctor_size n = .ok w ∧ w.size_ ≤ w.capacity_) ∧
    (∀ n (x : α), ∃ w : SimpleVector α, ctor_fill n x = .ok w ∧ w.size_ ≤ w.capacity_) ∧
    (∀ init : List α, ∃ w : SimpleVector α,
      ctor_init_list init = .ok w ∧ w.size_ ≤ w.capacity_) ∧
    (∀ c, ∃ w : SimpleVector α,
      ctor_reserve (Reserve_proxy c) = .ok w ∧ w.size_ ≤ w.capacity_) ∧
    (∃ w : SimpleVector α, ctor_copy v = .ok (v, w) ∧ w.size_ ≤ w.capacity_) ∧
    ((ctor_move v).1.size_ ≤ (ctor_move v).1.capacity_ ∧
      (ctor_move v).2.size_ ≤ (ctor_move v).2.capacity_) ∧
    (∀ c, ∃ w : SimpleVector α, v.Reserve c = .ok w ∧ w.size_ ≤ w.capacity_) ∧
    (∀ n, ∃ w : SimpleVector α, v.Resize n = .ok w ∧ w.size_ ≤ w.capacity_) ∧
    (∀ item : Arg α,
      (∀ i, item = .element i → v.size_ ≠ v.capacity_ ∧ i < v.size_) →
      ∃ w : SimpleVector α,
        v.PushBack item = .ok w ∧ v.PushBack_move item = .ok w ∧ w.size_ ≤ w.capacity_) ∧
    (∀ k (value : Arg α), k ≤ v.size_ → (∀ i, value = .element i → i < v.size_) →
      ∃ w : SimpleVector α,
        v.Insert k value = .ok (w, k) ∧ v.Insert_move k value = .ok (w, k) ∧
          w.size_ ≤ w.capacity_) ∧
    v.PopBack.size_ ≤ v.PopBack.capacity_ ∧
    (∀ k, k < v.size_ → ∃ w : SimpleVector α, v.Erase k = .ok (w, k) ∧
      w.size_ ≤ w.capacity_) ∧
    v.Clear.size_ ≤ v.Clear.capacity_ ∧
    ((v.swap other).1.size_ ≤ (v.swap other).1.capacity_ ∧
      (v.swap other).2.size_ ≤ (v.swap other).2.capacity_) ∧
    (∃ w : SimpleVector α, assign_copy v other = .ok (w, other) ∧ w.size_ ≤ w.capacity_) ∧
    (assign_copy_self v).size_ ≤ (assign_copy_self v).capacity_ ∧
    ((assign_move v other).1.size_ ≤ (assign_move v other).1.capacity_ ∧
      (assign_move v other).2.size_ ≤ (assign_move v other).2.capacity_) ∧
    (assign_move_self v).size_ ≤ (assign_move_self v).capacity_ := by
  have hs := hv.size_le
  have hc := hv.capacity_le
  have hlt := inContract_capacity_lt v hv
  have hos := ho.size_le
  have hoc := ho.capacity_le
  refine ⟨Nat.le_refl _, ?_, ?_, ?_, ?_, ?_, ⟨Nat.le_refl _, hs⟩, ?_, ?_, ?_, ?_, ?_, ?_,
    Nat.zero_le _, ⟨hos, hs⟩, ?_, hs, ⟨hos, hs⟩, hs⟩
  · intro n
    obtain ⟨items, hr, _⟩ := @ctor_size_spec α _ n
    exact ⟨_, hr, Nat.le_refl _⟩
  · intro n x
    obtain ⟨items, hr, _⟩ := ctor_fill_spec n x
    exact ⟨_, hr, Nat.le_refl _⟩
  · intro init
    obtain ⟨items, hr, _⟩ := ctor_init_list_spec init
    exact ⟨_, hr, Nat.le_refl _⟩
  · intro c
    obtain ⟨items, hr, _⟩ := @ctor_reserve_spec α _ c
    exact ⟨_, hr, Nat.zero_le _⟩
  · obtain ⟨items, hr, _⟩ := ctor_copy_spec v (by omega)
    exact ⟨_, hr, Nat.le_refl _⟩
  · intro c
    obtain ⟨w, hr, hcap, hsz⟩ := Reserve_ok v c hs hc
    exact ⟨w, hr, by omega⟩
  · intro n
    obtain ⟨items, hr⟩ := Resize_spec_gen v n hv
    refine ⟨_, hr, ?_⟩
    show n ≤ if v.capacity_ < n then max n (2 * v.capacity_) else v.capacity_
    split <;> omega
  · intro item hitem
    obtain ⟨x, hx, _⟩ := PushBack_arg_readable v item hs hc hitem
    obtain ⟨items, hr, _⟩ := PushBack_spec_arg v item x hv hx
    refine ⟨_, hr, by rw [PushBack_move_eq]; exact hr, ?_⟩
    show v.size_ + 1 ≤ if v.size_ = v.capacity_ then max 1 (2 * v.capacity_) else v.capacity_
    split <;> omega
  · intro k value hk hvalue
    obtain ⟨items, x, hr, _⟩ := Insert_spec_arg v k value hv hk
      (by intro i hi; have := hvalue i hi; omega)
    refine ⟨_, hr, by rw [Insert_move_eq]; exact hr, ?_⟩
    show v.size_ + 1 ≤ if v.size_ = v.capacity_ then max 1 (2 * v.capacity_) else v.capacity_
    split <;> omega
  · obtain ⟨h1, h2, _⟩ := PopBack_size_le v (by unfold SIZE_MOD; omega)
    omega
  · intro k hk
    obtain ⟨items, hr, _⟩ := Erase_spec v k (by omega) (by unfold SIZE_MOD; omega) hk
    refine ⟨_, hr, ?_⟩
    show v.size_ - 1 ≤ v.capacity_
    omega
  · obtain ⟨items, hr, _⟩ := ctor_copy_spec other (by omega)
    refine ⟨⟨items, other.size_, other.size_⟩, ?_, Nat.le_refl _⟩
    simp only [assign_copy, hr, Outcome.ok_bind, swap, ArrayPtr.swap, Outcome.pure_eq_ok]

/-- Instance of C14 on `{1, 9, 2, 3}` (full) and `{1, 2, 3}` with capacity 4. -/
theorem size_le_capacity_invariant_witness :
    sample_full.InContract ∧ sample_spare.InContract ∧
    (∀ c, ∃ w : SimpleVector Int, sample_full.Reserve c = .ok w ∧ w.size_ ≤ w.capacity_) ∧
    (∀ n, ∃ w : SimpleVector Int, sample_full.Resize n = .ok w ∧ w.size_ ≤ w.capacity_) ∧
    (∀ x, ∃ w : SimpleVector Int,
      sample_full.PushBack (.object x) = .ok w ∧ sample_full.PushBack_move (.object x) = .ok w ∧
        w.size_ ≤ w.capacity_) ∧
    (∀ k, k ≤ sample_full.size_ → ∃ w : SimpleVector Int,
      sample_full.Insert k (.element 0) = .ok (w, k) ∧
        sample_full.Insert_move k (.element 0) = .ok (w, k) ∧ w.size_ ≤ w.capacity_) ∧
    (∃ w : SimpleVector Int,
      assign_copy sample_full sample_spare = .ok (w, sample_spare) ∧ w.size_ ≤ w.capacity_) :=
  have h := size_le_capacity_invariant sample_full sample_spare
    ⟨by decide, by decide, by decide⟩ ⟨by decide, by decide, by decide⟩
  ⟨⟨by decide, by decide, by decide⟩, ⟨by decide, by decide, by decide⟩,
    h.2.2.2.2.2.2.2.1, h.2.2.2.2.2.2.2.2.1,
    (fun x => h.2.2.2.2.2.2.2.2.2.1 (.object x) (fun _ e => nomatch e)),
    (fun k hk => h.2.2.2.2.2.2.2.2.2.2.1 k (.element 0) hk
      (fun i e => by cases e; decide)),
    h.2.2.2.2.2.2.2.2.2.2.2.2.2.2.2.1⟩


/-- C15, evaluated: the default constructor and move assignment keep
`capacity_` equal to the block length, and the object made by move construction
has the source's block and capacity; but the moved-from source is left with
`capacity_ = 0` while it owns the block of `other.capacity_` elements that
`items_(other.capacity_)` allocated.  On `{1, 2, 3}` with capacity 4 the source
ends with capacity 0 and a block of 4 elements. -/
theorem ctor_move_source_capacity_mismatch [Element α] (a b : SimpleVector α) :
    ((ctor_default : SimpleVector α).capacity_ = 0 ∧
      (ctor_default : SimpleVector α).items_.block.length = 0) ∧
    ((assign_move a b).1.capacity_ = b.capacity_ ∧ (assign_move a b).1.items_ = b.items_ ∧
      (assign_move a b).2.capacity_ = a.capacity_ ∧ (assign_move a b).2.items_ = a.items_) ∧
    ((ctor_move a).2.capacity_ = a.capacity_ ∧ (ctor_move a).2.items_ = a.items_) ∧
    ((ctor_move a).1.capacity_ = 0 ∧ (ctor_move a).1.items_.block.length = a.capacity_) ∧
    (sample_spare.capacity_ = 4 ∧ sample_spare.items_.block.length = 4 ∧
      (ctor_move sample_spare).1.capacity_ = 0 ∧
      (ctor_move sample_spare).1.items_.block.length = 4 ∧
      (ctor_move sample_spare).1.capacity_ ≠ (ctor_move sample_spare).1.items_.block.length) := by
  refine ⟨⟨rfl, rfl⟩, ⟨rfl, rfl, rfl, rfl⟩, ⟨rfl, rfl⟩, ⟨rfl, ?_⟩, ⟨rfl, rfl, rfl, rfl, by decide⟩⟩
  show (ArrayPtr.alloc a.capacity_ : ArrayPtr α).block.length = a.capacity_
  rw [ArrayPtr.block_alloc, List.length_replicate]

/-- C18: on a vector in contract (so with `2 * capacity_` representable in
`size_t`), none of `Reserve`, `Resize`, `PushBack`, `Insert` at `k <= size`,
`PopBack`, `Erase` at `k < size` and `Clear` leaves a capacity smaller than
before the call (the argument of `PushBack` and `Insert` being an object of its
own, or a reference to a live element, for `PushBack` of a vector with spare
capacity); copy construction, move construction (for its source), copy
assignment and `swap` do give an object a smaller capacity, as on the vectors
of `int` named here. -/
theorem capacity_never_shrinks [Element α] (v : SimpleVector α) (hv : v.InContract) :
    (∀ c, ∃ w : SimpleVector α, v.Reserve c = .ok w ∧ v.capacity_ ≤ w.capacity_) ∧
    (∀ n, ∃ w : SimpleVector α, v.Resize n = .ok w ∧ v.capacity_ ≤ w.capacity_) ∧
    (∀ item : Arg α,
      (∀ i, item = .element i → v.size_ ≠ v.capacity_ ∧ i < v.size_) →
      ∃ w : SimpleVector α,
        v.PushBack item = .ok w ∧ v.PushBack_move item = .ok w ∧ v.capacity_ ≤ w.capacity_) ∧
    (∀ k (value : Arg α), k ≤ v.size_ → (∀ i, value = .element i → i < v.size_) →
      ∃ w : SimpleVector α,
        v.Insert k value = .ok (w, k) ∧ v.Insert_move k value = .ok (w, k) ∧
          v.capacity_ ≤ w.capacity_) ∧
    v.capacity_ ≤ v.PopBack.capacity_ ∧
    (∀ k, k < v.size_ → ∃ w : SimpleVector α, v.Erase k = .ok (w, k) ∧
      v.capacity_ ≤ w.capacity_) ∧
    v.capacity_ ≤ v.Clear.capacity_ ∧
    (sample_spare.capacity_ = 4 ∧
      ctor_copy sample_spare = .ok (sample_spare, sample_tight) ∧ sample_tight.capacity_ = 3) ∧
    (ctor_move sample_spare).1.capacity_ = 0 ∧
    (sample_full.capacity_ = 4 ∧
      assign_copy sample_full sample_12 = .ok (⟨⟨some [1, 2]⟩, 2, 2⟩, sample_12)) ∧
    (sample_full.swap ctor_default).1.capacity_ = 0 := by
  have hs := hv.size_le
  have hc := hv.capacity_le
  refine ⟨?_, ?_, ?_, ?_, ?_, ?_, Nat.le_refl _, ⟨rfl, rfl, rfl⟩, rfl, ⟨rfl, rfl⟩, rfl⟩
  · intro c
    obtain ⟨w, hr, hcap, _⟩ := Reserve_ok v c hs hc
    exact ⟨w, hr, hcap⟩
  · intro n
    obtain ⟨items, hr⟩ := Resize_spec_gen v n hv
    refine ⟨_, hr, ?_⟩
    show v.capacity_ ≤ if v.capacity_ < n then max n (2 * v.capacity_) else v.capacity_
    split <;> omega
  · intro item hitem
    obtain ⟨x, hx, _⟩ := PushBack_arg_readable v item hs hc hitem
    obtain ⟨items, hr, _⟩ := PushBack_spec_arg v item x hv hx
    refine ⟨_, hr, by rw [PushBack_move_eq]; exact hr, ?_⟩
    show v.capacity_ ≤ if v.size_ = v.capacity_ then max 1 (2 * v.capacity_) else v.capacity_
    split <;> omega
  · intro k value hk hvalue
    obtain ⟨items, x, hr, _⟩ := Insert_spec_arg v k value hv hk
      (by intro i hi; have := hvalue i hi; omega)
    refine ⟨_, hr, by rw [Insert_move_eq]; exact hr, ?_⟩
    show v.capacity_ ≤ if v.size_ = v.capacity_ then max 1 (2 * v.capacity_) else v.capacity_
    split <;> omega
  · have hlt := inContract_capacity_lt v hv
    obtain ⟨_, h2, _⟩ := PopBack_size_le v (by unfold SIZE_MOD; omega)
    omega
  · intro k hk
    obtain ⟨w, hr, hcap⟩ := Erase_ok v k (by omega) hk
    exact ⟨w, hr, by omega⟩

/-- Instance of C18 on the full vector `{1, 9, 2, 3}`: `PushBack` takes the
capacity from 4 to 8. -/
theorem capacity_never_shrinks_witness :
    sample_full.InContract ∧
    sample_full.PushBack (.object 5) = .ok ⟨⟨some [1, 9, 2, 3, 5, -1, -1, -1]⟩, 5, 8⟩ ∧
    (∀ x, ∃ w : SimpleVector Int,
      sample_full.PushBack (.object x) = .ok w ∧ sample_full.PushBack_move (.object x) = .ok w ∧
        sample_full.capacity_ ≤ w.capacity_) ∧
    (∀ k, k ≤ sample_full.size_ → ∃ w : SimpleVector Int,
      sample_full.Insert k (.element 0) = .ok (w, k) ∧
        sample_full.Insert_move k (.element 0) = .ok (w, k) ∧
        sample_full.capacity_ ≤ w.capacity_) ∧
    sample_full.capacity_ ≤ sample_full.Clear.capacity_ :=
  have h := capacity_never_shrinks sample_full ⟨by decide, by decide, by decide⟩
  ⟨⟨by decide, by decide, by decide⟩, rfl,
    (fun x => h.2.2.1 (.object x) (fun _ e => nomatch e)),
    (fun k hk => h.2.2.2.1 k (.element 0) hk (fun i e => by cases e; decide)),
    h.2.2.2.2.2.2.1⟩

/-- Where the operations stay inside the block: a read or write of a block is
undefined exactly when the index is not below the block length; on a vector
with `size_ <= capacity_` and a block of at least `capacity_` elements, `Erase`
at `k < size`, `Resize`, `Reserve` and `At(i)` with `i < size` yield a value, so
make no such access; when `2 * capacity_` is representable in `size_t`, so do
`Insert` at `k <= size` on both paths, for an object of its own and for a
reference to an element of the block, and `PushBack` for an object of its own
and, when the vector is not full, for a reference to an element of the block;
`PushBack` with a reference to an element of a full vector is undefined. -/
theorem operations_stay_inside_block [Element α] (v : SimpleVector α)
    (hs : v.size_ ≤ v.capacity_) (hc : v.capacity_ ≤ v.items_.block.length) :
    (∀ (p : ArrayPtr α) (i : Nat), p.read i = .undefined ↔ p.block.length ≤ i) ∧
    (∀ (p : ArrayPtr α) (i : Nat) (x : α), p.write i x = .undefined ↔ p.block.length ≤ i) ∧
    (2 * v.capacity_ < SIZE_MOD →
      (∀ x, ∃ w : SimpleVector α,
        v.PushBack (.object x) = .ok w ∧ v.PushBack_move (.object x) = .ok w) ∧
      (∀ i, v.size_ ≠ v.capacity_ → i < v.items_.block.length → ∃ w : SimpleVector α,
        v.PushBack (.element i) = .ok w ∧ v.PushBack_move (.element i) = .ok w) ∧
      (∀ i, v.size_ = v.capacity_ →
        v.PushBack (.element i) = .undefined ∧ v.PushBack_move (.element i) = .undefined) ∧
      (∀ k (value : Arg α), k ≤ v.size_ →
        (∀ i, value = .element i → i < v.items_.block.length) → ∃ w : SimpleVector α,
        v.Insert k value = .ok (w, k) ∧ v.Insert_move k value = .ok (w, k) ∧
        CopyOnly.Insert v k value = .ok (w, k))) ∧
    (∀ k, k < v.size_ → ∃ w : SimpleVector α,
      v.Erase k = .ok (w, k) ∧ CopyOnly.Erase v k = .ok (w, k)) ∧
    (∀ n, ∃ w : SimpleVector α, v.Resize n = .ok w) ∧
    (∀ c, ∃ w : SimpleVector α, v.Reserve c = .ok w) ∧
    (∀ i, i < v.size_ → ∃ x, (v.At i).2 = .ok x ∧ v.subscript i = .ok x) := by
  refine ⟨read_undefined_iff, write_undefined_iff, ?_, ?_, ?_, ?_, ?_⟩
  · intro hd
    have hv : v.InContract := ⟨hs, hc, hd⟩
    refine ⟨?_, ?_, ?_, ?_⟩
    · intro x
      obtain ⟨items, hr, _⟩ := PushBack_spec_gen v x hv
      exact ⟨_, hr, by rw [PushBack_move_eq]; exact hr⟩
    · intro i hnf hi
      obtain ⟨items, hr, _⟩ := PushBack_spec_arg v (.element i) (v.items_.block.get ⟨i, hi⟩) hv
        (by rw [if_neg hnf]; exact ArrayPtr.read_of_lt _ _ hi)
      exact ⟨_, hr, by rw [PushBack_move_eq]; exact hr⟩
    · intro i hfull
      exact ⟨PushBack_full_element v i hv hfull,
        by rw [PushBack_move_eq]; exact PushBack_full_element v i hv hfull⟩
    · intro k value hk hvalue
      obtain ⟨items, x, hr, _⟩ := Insert_spec_arg v k value hv hk hvalue
      exact ⟨_, hr, by rw [Insert_move_eq]; exact hr, by rw [CopyOnly_Insert_eq]; exact hr⟩
  · intro k hk
    obtain ⟨w, hr, _⟩ := Erase_ok v k (by omega) hk
    exact ⟨w, hr, by rw [CopyOnly_Erase_eq]; exact hr⟩
  · intro n
    obtain ⟨w, hr, _⟩ := Resize_ok v n hs hc
    exact ⟨w, hr⟩
  · intro c
    obtain ⟨w, hr, _⟩ := Reserve_ok v c hs hc
    exact ⟨w, hr⟩
  · intro i hi
    have hb : i < v.items_.block.length := by omega
    have hle : ¬ (v.size_ ≤ i) := by omega
    refine ⟨v.items_.block.get ⟨i, hb⟩, ?_, subscript_of_lt v i hb⟩
    simp only [At, if_neg hle, ArrayPtr.read_of_lt _ _ hb]

/-- C20, evaluated: on the full vector `{1, 2, 3}` made by the initializer-list
constructor (size 3, capacity 3, a block of 3 elements) the call
`PushBack(v[2])` (either overload) runs `IncreaseCapacity(6)`, which installs a block of 6 elements and releases the
block of 3, and then reads `item`, element 2 of the released block: a read
outside any block the vector owns, so the call is undefined, for every element
the reference may name.  The same call with an object of its own, or on a
vector with spare capacity, reads and writes inside the owned block only. -/
theorem PushBack_reads_outside_owned_block :
    ctor_init_list [1, 2, 3] = .ok sample_tight ∧
    (sample_tight.size_ = 3 ∧ sample_tight.capacity_ = 3 ∧
      sample_tight.items_.block.length = 3) ∧
    sample_tight.subscript 2 = .ok 3 ∧
    sample_tight.IncreaseCapacity 6 = .ok ⟨⟨some [1, 2, 3, -1, -1, -1]⟩, 3, 6⟩ ∧
    (Arg.element 2 : Arg Int).read none = .undefined ∧
    sample_tight.PushBack (.element 2) = .undefined ∧
    sample_tight.PushBack_move (.element 2) = .undefined ∧
    sample_tight.PushBack (.element 0) = .undefined ∧
    sample_tight.PushBack (.element 1) = .undefined ∧
    sample_tight.PushBack (.object 3) = .ok ⟨⟨some [1, 2, 3, 3, -1, -1]⟩, 4, 6⟩ ∧
    (sample_spare.size_ = 3 ∧ sample_spare.capacity_ = 4 ∧
      sample_spare.PushBack (.element 2) = .ok ⟨⟨some [1, 2, 3, 3]⟩, 4, 4⟩) := by
  refine ⟨rfl, ⟨rfl, rfl, rfl⟩, rfl, rfl, rfl, rfl, rfl, rfl, rfl, rfl, rfl, rfl, rfl⟩

end SimpleVector

end SimpleVectorModel
